import Mathlib

/-!
Verification of the openalex-neo4j core algorithms against their
natural-language specification.

The embedding is shallow: Python strings are modelled as lists of
characters, Python dicts (which preserve insertion order) as association
lists, floats as rationals, and the fetch collaborators as explicit
function records.  Each definition mirrors one function of the source
tree (src/openalex_neo4j); the theorems below settle the spec claims.
-/

namespace OpenAlexNeo4j

/-- Python strings, modelled as lists of characters. -/
abbrev PyStr := List Char

/-- Helper to write PyStr literals from Lean string literals. -/
def strToChars (s : String) : PyStr := s.toList

/-- Python str.split(sep) for a one-character separator: splits on every
occurrence of the separator, keeping empty segments, and returns one
(possibly empty) segment even for the empty string. -/
def splitOnChar (sep : Char) : PyStr → List PyStr
  | [] => [[]]
  | c :: cs =>
      if c = sep then [] :: splitOnChar sep cs
      else
        match splitOnChar sep cs with
        | [] => [[c]]
        | s :: ss => (c :: s) :: ss

/-- models.extract_openalex_id: None and the empty string map to None; a
string containing a slash maps to its final slash-separated segment; any
other string is returned unchanged. -/
def extract_openalex_id (url : Option PyStr) : Option PyStr :=
  match url with
  | none => none
  | some u =>
      if u = [] then none
      else if ('/' : Char) ∈ u then some ((splitOnChar '/' u).getLastD [])
      else some u

/-!
## Association lists modelling Python dicts

Python dicts preserve insertion order: assigning to a fresh key appends,
assigning to an existing key updates in place.  We model a dict as a list
of key/value pairs with exactly those semantics.
-/
/-- The keys of an association list, in insertion order. -/
def alKeys {α : Type} (m : List (String × α)) : List String := m.map Prod.fst

/-- Python dict assignment d[key] = v: update in place when the key is
present, append otherwise. -/
def alInsert {α : Type} (m : List (String × α)) (key : String) (v : α) :
    List (String × α) :=
  if key ∈ alKeys m then m.map (fun p => if p.1 = key then (p.1, v) else p)
  else m ++ [(key, v)]

/-- Python d.get(key, dflt). -/
def alGetD {α : Type} (m : List (String × α)) (key : String) (dflt : α) : α :=
  match m.find? (fun p => p.1 == key) with
  | some p => p.2
  | none => dflt

/-!
## Rank fusion (search.HybridSearcher._reciprocal_rank_fusion)

Scores are Python floats; the algorithm only divides, adds and compares
them, so they are modelled as rationals.  The RRF constant k is an int in
the source with default 60; it is modelled as a natural number so that
k + rank is always positive (rank being 1-based), exactly the domain on
which the Python code does not raise ZeroDivisionError.
-/
/-- A Python dict mapping work ids to scores. -/
abbrev ScoreMap := List (String × ℚ)

/-- The comparison used by sorted(..., key=score, reverse=True): an entry
precedes another when its score is at least as large. -/
def scoreGE (a b : String × ℚ) : Prop := b.2 ≤ a.2

instance : DecidableRel scoreGE := fun a b => inferInstanceAs (Decidable (b.2 ≤ a.2))

instance : IsTotal (String × ℚ) scoreGE := ⟨fun a b => le_total b.2 a.2⟩

instance : IsTrans (String × ℚ) scoreGE := ⟨fun _ _ _ h1 h2 => le_trans h2 h1⟩

/-- Python sorted(items, key=score, reverse=True).  Python's sort is
stable, and any two stable sorts agree extensionally, so the stable
insertion sort is extensionally the same function. -/
def sortByScoreDesc (l : ScoreMap) : ScoreMap := List.insertionSort scoreGE l

/-- The loop "for rank, (work_id, _) in enumerate(vector_ranked, start=1):
rrf_scores[work_id] = vector_weight / (k + rank)". -/
def addVectorScores (w : ℚ) (k : ℕ) : ℕ → ScoreMap → ScoreMap → ScoreMap
  | _, [], d => d
  | rank, p :: ps, d =>
      addVectorScores w k (rank + 1) ps (alInsert d p.1 (w / ((k + rank : ℕ) : ℚ)))

/-- The loop "for rank, (work_id, _) in enumerate(fulltext_ranked, start=1):
rrf_scores[work_id] = rrf_scores.get(work_id, 0) + fulltext_weight / (k + rank)". -/
def addFulltextScores (w : ℚ) (k : ℕ) : ℕ → ScoreMap → ScoreMap → ScoreMap
  | _, [], d => d
  | rank, p :: ps, d =>
      addFulltextScores w k (rank + 1) ps
        (alInsert d p.1 (alGetD d p.1 0 + w / ((k + rank : ℕ) : ℚ)))

/-- search.HybridSearcher._reciprocal_rank_fusion. -/
def reciprocal_rank_fusion (vector_results fulltext_results : ScoreMap)
    (vector_weight fulltext_weight : ℚ) (k : ℕ) : ScoreMap :=
  let vector_ranked := sortByScoreDesc vector_results
  let fulltext_ranked := sortByScoreDesc fulltext_results
  let d1 := addVectorScores vector_weight k 1 vector_ranked []
  let d2 := addFulltextScores fulltext_weight k 1 fulltext_ranked d1
  sortByScoreDesc d2

/-- The 1-based rank of the first entry with the given id, counting from
n, in a ranked score list. -/
def rankFrom (n : ℕ) (id : String) : ScoreMap → Option ℕ
  | [] => none
  | p :: ps => if p.1 = id then some n else rankFrom (n + 1) id ps

/-- w / (k + r) when the id sits at 1-based rank r (counting from n) in
the ranked list, and 0 when the id is absent. -/
def contribFrom (w : ℚ) (k : ℕ) (n : ℕ) (id : String) (l : ScoreMap) : ℚ :=
  match rankFrom n id l with
  | some r => w / ((k + r : ℕ) : ℚ)
  | none => 0

/-- The RRF contribution of one source to one id: w / (k + r) where r is
the id's 1-based rank in the source's score-descending ranking, and 0
when the id does not appear in that source. -/
def rrfContribution (results : ScoreMap) (w : ℚ) (k : ℕ) (id : String) : ℚ :=
  contribFrom w k 1 id (sortByScoreDesc results)

/-- The entries produced by the vector loop on a fresh dict: each ranked
entry keyed as before, scored w / (k + rank). -/
def assignScores (w : ℚ) (k : ℕ) : ℕ → ScoreMap → ScoreMap
  | _, [] => []
  | n, p :: ps => (p.1, w / ((k + n : ℕ) : ℚ)) :: assignScores w k (n + 1) ps

/-- The entries the fulltext loop appends: ranked entries whose key is
not among dk, scored w / (k + rank). -/
def newEntries (w : ℚ) (k : ℕ) (dk : List String) : ℕ → ScoreMap → ScoreMap
  | _, [] => []
  | n, p :: ps =>
      if p.1 ∈ dk then newEntries w k dk (n + 1) ps
      else (p.1, w / ((k + n : ℕ) : ℚ)) :: newEntries w k dk (n + 1) ps

/-- Concrete score maps used by the witnesses. -/
def sampleVectorHits : ScoreMap := [("A", 3), ("B", 2)]

/-- Concrete score maps used by the witnesses. -/
def sampleFulltextHits : ScoreMap := [("B", 5), ("C", 1)]

/-!
## Entity model (models.py) and collector state (importer.py)

Each dataclass of models.py becomes a structure; scalar Python ints are
integers, floats rationals, strings char lists, ids Lean strings.
-/
/-- models.Work. -/
structure Work where
  id : String
  title : Option PyStr := none
  publication_year : Option ℤ := none
  publication_date : Option PyStr := none
  doi : Option PyStr := none
  type : Option PyStr := none
  cited_by_count : ℤ := 0
  is_oa : Bool := false
  abstract : Option PyStr := none
  embedding : Option (List ℚ) := none
  author_ids : List String := []
  institution_ids : List String := []
  source_id : Option String := none
  topic_ids : List String := []
  funder_ids : List String := []
  referenced_work_ids : List String := []
deriving DecidableEq

/-- models.Author. -/
structure Author where
  id : String
  display_name : Option PyStr := none
  orcid : Option PyStr := none
  works_count : ℤ := 0
  cited_by_count : ℤ := 0
deriving DecidableEq

/-- models.Institution. -/
structure Institution where
  id : String
  display_name : Option PyStr := none
  ror : Option PyStr := none
  country_code : Option PyStr := none
  type : Option PyStr := none
  works_count : ℤ := 0
deriving DecidableEq

/-- models.Source. -/
structure Source where
  id : String
  display_name : Option PyStr := none
  issn_l : Option PyStr := none
  issn : List PyStr := []
  type : Option PyStr := none
  publisher_id : Option String := none
  works_count : ℤ := 0
deriving DecidableEq

/-- models.Topic. -/
structure Topic where
  id : String
  display_name : Option PyStr := none
  description : Option PyStr := none
  keywords : List PyStr := []
deriving DecidableEq

/-- models.Publisher. -/
structure Publisher where
  id : String
  display_name : Option PyStr := none
  country_codes : List PyStr := []
  works_count : ℤ := 0
deriving DecidableEq

/-- models.Funder. -/
structure Funder where
  id : String
  display_name : Option PyStr := none
  country_code : Option PyStr := none
  description : Option PyStr := none
deriving DecidableEq

/-- The OpenAlexImporter collections: seven dicts keyed by canonical id.
The publishers dict maps to Option Publisher, none being the unresolved
placeholder the source code stores for ids first seen via a Source. -/
structure Collector where
  works : List (String × Work) := []
  authors : List (String × Author) := []
  institutions : List (String × Institution) := []
  sources : List (String × Source) := []
  topics : List (String × Topic) := []
  publishers : List (String × Option Publisher) := []
  funders : List (String × Funder) := []
deriving DecidableEq

/-- importer.OpenAlexImporter._add_works: insert each work only when its
id is not yet a key (first-write-wins). -/
def addWorksList (m : List (String × Work)) (ws : List Work) :
    List (String × Work) :=
  ws.foldl (fun m w => if w.id ∈ alKeys m then m else m ++ [(w.id, w)]) m

/-- importer.OpenAlexImporter._add_works on the collector state. -/
def add_works (st : Collector) (ws : List Work) : Collector :=
  { st with works := addWorksList st.works ws }

/-- The merge loop used by _expand_relationships for the six non-Work
kinds: plain dict assignment self.xs[x.id] = x for each fetched record. -/
def mergeAssign {α : Type} (m : List (String × α)) (xs : List α)
    (idOf : α → String) : List (String × α) :=
  xs.foldl (fun m x => alInsert m (idOf x) x) m

/-- One batched fetch issued during an expansion round. -/
inductive FetchCall where
  | authors (ids : List String)
  | institutions (ids : List String)
  | sources (ids : List String)
  | topics (ids : List String)
  | funders (ids : List String)
  | works (ids : List String)
  | publishers (ids : List String)
deriving DecidableEq

/-- The OpenAlex client collaborator, reduced to its batched id fetches. -/
structure FetchOracle where
  fetch_authors_by_ids : List String → List Author
  fetch_institutions_by_ids : List String → List Institution
  fetch_sources_by_ids : List String → List Source
  fetch_topics_by_ids : List String → List Topic
  fetch_funders_by_ids : List String → List Funder
  fetch_works_by_ids : List String → List Work
  fetch_publishers_by_ids : List String → List Publisher

/-- Set insertion: Python set.update element step.  Python sets are
unordered; the model keeps first-encounter order, which no claim depends
on. -/
def setAdd (acc : List String) (x : String) : List String :=
  if x ∈ acc then acc else acc ++ [x]

/-- Union of the id lists drawn from every collected work. -/
def collectIds (f : Work → List String) (st : Collector) : List String :=
  st.works.foldl (fun acc p => (f p.2).foldl setAdd acc) []

/-- Union of the (truthy) source ids of every collected work. -/
def collectSourceIds (st : Collector) : List String :=
  st.works.foldl
    (fun acc p =>
      match p.2.source_id with
      | some s => if s ≠ "" then setAdd acc s else acc
      | none => acc) []

/-- The per-kind frontier: collected ids minus already-resolved keys. -/
def frontierOf {α : Type} (ids : List String) (m : List (String × α)) :
    List String :=
  ids.filter (fun id => decide (id ∉ alKeys m))

/-- The source-fetch loop body: record each source, and a placeholder
publishers entry for a publisher id not yet present. -/
def recordSource (sp : List (String × Source) × List (String × Option Publisher))
    (s : Source) :
    List (String × Source) × List (String × Option Publisher) :=
  let srcs := alInsert sp.1 s.id s
  let pubs :=
    match s.publisher_id with
    | some pid =>
        if pid ≠ "" ∧ pid ∉ alKeys sp.2 then sp.2 ++ [(pid, none)] else sp.2
    | none => sp.2
  (srcs, pubs)

/-- importer.OpenAlexImporter._expand_relationships: one expansion round.
Returns the new collector state together with the batched fetch calls
issued, in program order. -/
def expand_relationships (fx : FetchOracle) (st : Collector) :
    Collector × List FetchCall :=
  let author_ids := frontierOf (collectIds Work.author_ids st) st.authors
  let institution_ids := frontierOf (collectIds Work.institution_ids st) st.institutions
  let source_ids := frontierOf (collectSourceIds st) st.sources
  let topic_ids := frontierOf (collectIds Work.topic_ids st) st.topics
  let funder_ids := frontierOf (collectIds Work.funder_ids st) st.funders
  let referenced_work_ids := frontierOf (collectIds Work.referenced_work_ids st) st.works
  let (authors1, calls1) :=
    if author_ids ≠ [] then
      (mergeAssign st.authors (fx.fetch_authors_by_ids author_ids) Author.id,
        [FetchCall.authors author_ids])
    else (st.authors, [])
  let (institutions1, calls2) :=
    if institution_ids ≠ [] then
      (mergeAssign st.institutions (fx.fetch_institutions_by_ids institution_ids)
          Institution.id,
        [FetchCall.institutions institution_ids])
    else (st.institutions, [])
  let (sources1, publishers1, calls3) :=
    if source_ids ≠ [] then
      let sp := (fx.fetch_sources_by_ids source_ids).foldl recordSource
        (st.sources, st.publishers)
      (sp.1, sp.2, [FetchCall.sources source_ids])
    else (st.sources, st.publishers, [])
  let (topics1, calls4) :=
    if topic_ids ≠ [] then
      (mergeAssign st.topics (fx.fetch_topics_by_ids topic_ids) Topic.id,
        [FetchCall.topics topic_ids])
    else (st.topics, [])
  let (funders1, calls5) :=
    if funder_ids ≠ [] then
      (mergeAssign st.funders (fx.fetch_funders_by_ids funder_ids) Funder.id,
        [FetchCall.funders funder_ids])
    else (st.funders, [])
  let (works1, calls6) :=
    if referenced_work_ids ≠ [] then
      (addWorksList st.works (fx.fetch_works_by_ids referenced_work_ids),
        [FetchCall.works referenced_work_ids])
    else (st.works, [])
  let placeholder_ids := alKeys (publishers1.filter (fun p => p.2.isNone))
  let (publishers2, calls7) :=
    if placeholder_ids ≠ [] then
      ((fx.fetch_publishers_by_ids placeholder_ids).foldl
          (fun m pub => alInsert m pub.id (some pub)) publishers1,
        [FetchCall.publishers placeholder_ids])
    else (publishers1, [])
  (⟨works1, authors1, institutions1, sources1, topics1, publishers2, funders1⟩,
    calls1 ++ calls2 ++ calls3 ++ calls4 ++ calls5 ++ calls6 ++ calls7)

/-!
## Relationship materialization (importer._import_relationships)
-/
/-- The relationship batches, each a list of (source_id, target_id). -/
structure RelBatches where
  authored : List (String × String)
  affiliated_with : List (String × String)
  published_in : List (String × String)
  cites : List (String × String)
  has_topic : List (String × String)
  funded_by : List (String × String)
  published_by : List (String × String)
deriving DecidableEq

/-- Order-preserving deduplication by exact pair, as performed by the
dict comprehension keyed on (source_id, target_id). -/
def dedupPairs (l : List (String × String)) : List (String × String) :=
  l.foldl (fun acc p => if p ∈ acc then acc else acc ++ [p]) []

/-- The AFFILIATED_WITH pairs proposed by one work: the cross product of
its author ids and institution ids, restricted to resolved entities. -/
def work_affiliations (st : Collector) (w : Work) : List (String × String) :=
  w.author_ids.flatMap (fun a =>
    (w.institution_ids.filter
        (fun i => decide (a ∈ alKeys st.authors ∧ i ∈ alKeys st.institutions))).map
      (fun i => (a, i)))

/-- importer.OpenAlexImporter._import_relationships: all seven batches. -/
def import_relationships (st : Collector) : RelBatches where
  authored := st.works.flatMap (fun p =>
    (p.2.author_ids.filter (fun a => decide (a ∈ alKeys st.authors))).map
      (fun a => (a, p.2.id)))
  affiliated_with := dedupPairs (st.works.flatMap (fun p => work_affiliations st p.2))
  published_in := st.works.filterMap (fun p =>
    match p.2.source_id with
    | some s => if s ≠ "" ∧ s ∈ alKeys st.sources then some (p.2.id, s) else none
    | none => none)
  cites := st.works.flatMap (fun p =>
    (p.2.referenced_work_ids.filter (fun r => decide (r ∈ alKeys st.works))).map
      (fun r => (p.2.id, r)))
  has_topic := st.works.flatMap (fun p =>
    (p.2.topic_ids.filter (fun t => decide (t ∈ alKeys st.topics))).map
      (fun t => (p.2.id, t)))
  funded_by := st.works.flatMap (fun p =>
    (p.2.funder_ids.filter (fun f => decide (f ∈ alKeys st.funders))).map
      (fun f => (p.2.id, f)))
  published_by := st.sources.filterMap (fun p =>
    match p.2.publisher_id with
    | some pb => if pb ≠ "" ∧ pb ∈ alKeys st.publishers then some (p.2.id, pb) else none
    | none => none)

/-- Concrete author records used by the merge counterexample: two
versions of author A plus an unrelated author B. -/
def authorAv1 : Author := { id := "A", display_name := some (strToChars "v1") }

/-- Second record carrying the same id as authorAv1 but different fields. -/
def authorAv2 : Author := { id := "A", display_name := some (strToChars "v2") }

/-- An unrelated author. -/
def authorB : Author := { id := "B", display_name := some (strToChars "b") }

/-- A concrete collector: one work referencing one author, one
institution, one source, plus an unresolved author id A2 that was never
fetched. -/
def sampleCollector : Collector where
  works := [("W1",
    { id := "W1", title := some (strToChars "Paper 1"),
      author_ids := ["A1", "A2"], institution_ids := ["I1"],
      source_id := some "S1" })]
  authors := [("A1", { id := "A1", display_name := some (strToChars "Author") })]
  institutions := [("I1", { id := "I1", display_name := some (strToChars "Inst") })]
  sources := [("S1",
    { id := "S1", display_name := some (strToChars "Journal"),
      publisher_id := some "P1" })]
  topics := []
  publishers := [("P1", some { id := "P1" })]
  funders := []

/-- An oracle whose every fetch returns non-trivial data, to show that
the no-op rounds never consult it. -/
def samplePublisherP1 : Publisher := { id := "P1", display_name := some (strToChars "Pub") }

/-- A fetch oracle returning a publisher record for any publisher query
and nothing else. -/
def publisherOracle : FetchOracle where
  fetch_authors_by_ids := fun _ => []
  fetch_institutions_by_ids := fun _ => []
  fetch_sources_by_ids := fun _ => []
  fetch_topics_by_ids := fun _ => []
  fetch_funders_by_ids := fun _ => []
  fetch_works_by_ids := fun _ => []
  fetch_publishers_by_ids := fun _ => [samplePublisherP1]

/-- A collector whose six frontiers are empty but which holds one
unresolved publisher placeholder. -/
def placeholderCollector : Collector := { publishers := [("P1", none)] }

/-- A fully resolved collector: every id referenced by its single work is
already a key of the corresponding collection, and the one publisher is
resolved. -/
def resolvedCollector : Collector where
  works := [("W1",
    { id := "W1", title := some (strToChars "Paper 1"),
      author_ids := ["A1"], institution_ids := ["I1"],
      source_id := some "S1" })]
  authors := [("A1", { id := "A1", display_name := some (strToChars "Author") })]
  institutions := [("I1", { id := "I1", display_name := some (strToChars "Inst") })]
  sources := [("S1",
    { id := "S1", display_name := some (strToChars "Journal"),
      publisher_id := some "P1" })]
  topics := []
  publishers := [("P1", some { id := "P1" })]
  funders := []

/-!
## Abstract reconstruction (models.Work.from_openalex) and node dicts
-/
/-- Python max over a list of naturals (0 on the empty list; the source
only applies it to non-empty lists). -/
def listMax (l : List ℕ) : ℕ := l.foldl Nat.max 0

/-- The inner loop "for pos in positions: words[pos] = word". -/
def writePositions (word : PyStr) (positions : List ℕ) (ws : List PyStr) :
    List PyStr :=
  positions.foldl (fun ws pos => ws.set pos word) ws

/-- Python " ".join(words) on char-list strings. -/
def joinWithSpace : List PyStr → PyStr
  | [] => []
  | [w] => w
  | w :: v :: ws => w ++ ' ' :: joinWithSpace (v :: ws)

/-- The abstract-reconstruction block of models.Work.from_openalex:
allocate [""] * (max position + 1), write every word at each of its
positions, then join with single spaces. -/
def reconstruct_abstract (idx : List (PyStr × List ℕ)) : PyStr :=
  let size := listMax (idx.map (fun p => listMax p.2)) + 1
  let words := idx.foldl (fun ws p => writePositions p.1 p.2 ws)
    (List.replicate size [])
  joinWithSpace words

/-- The word written last at a position: the final index entry whose
position list contains it, or the empty string if no entry does. -/
def lastWriteAt (idx : List (PyStr × List ℕ)) (i : ℕ) : PyStr :=
  match idx.reverse.find? (fun p => p.2.contains i) with
  | some p => p.1
  | none => []

/-- Python str.capitalize: first character uppercased, the rest
lowercased (ASCII, as in the source's type tags). -/
def pyCapitalize : PyStr → PyStr
  | [] => []
  | c :: cs => c.toUpper :: cs.map Char.toLower

/-- neo4j_client.to_camel_case_label: None/empty input maps to None; a
non-empty string is split on hyphens, each part capitalized and the
parts concatenated. -/
def to_camel_case_label (text : Option PyStr) : Option PyStr :=
  match text with
  | none => none
  | some t =>
      if t = [] then none
      else some (((splitOnChar '-' t).map pyCapitalize).flatten)

/-- A property value of a Neo4j node dict. -/
inductive PVal where
  | str (v : String)
  | ops (v : Option PyStr)
  | oint (v : Option ℤ)
  | int (v : ℤ)
  | bool (v : Bool)
  | pstr (v : PyStr)
  | qlist (v : List ℚ)
deriving DecidableEq

/-- models.Work.to_node_dict: the nine base properties, then the derived
dynamic label under "_label" (the camel-cased type tag, or "Work" when
the type tag is absent or empty), then the embedding when truthy. -/
def Work.to_node_dict (w : Work) : List (String × PVal) :=
  let node_dict : List (String × PVal) := [
    ("id", PVal.str w.id),
    ("title", PVal.ops w.title),
    ("publication_year", PVal.oint w.publication_year),
    ("publication_date", PVal.ops w.publication_date),
    ("doi", PVal.ops w.doi),
    ("type", PVal.ops w.type),
    ("cited_by_count", PVal.int w.cited_by_count),
    ("is_oa", PVal.bool w.is_oa),
    ("abstract", PVal.ops w.abstract)]
  let node_dict := node_dict ++ [("_label", PVal.pstr (
    match w.type, to_camel_case_label w.type with
    | some t, some lbl => if t ≠ [] then lbl else strToChars "Work"
    | _, _ => strToChars "Work"))]
  match w.embedding with
  | some e => if e ≠ [] then node_dict ++ [("embedding", PVal.qlist e)] else node_dict
  | none => node_dict

/-- The sub-type label exactly as the spec words it: split the type tag
on hyphens, capitalize each token and concatenate; an absent (or empty,
i.e. falsy) tag yields "Work". -/
def specSubTypeLabel (typeTag : Option PyStr) : PyStr :=
  match typeTag with
  | none => strToChars "Work"
  | some t =>
      if t = [] then strToChars "Work"
      else ((splitOnChar '-' t).map pyCapitalize).flatten

/-- The concrete inverted index of the spec's round-trip example. -/
def sampleInvertedIndex : List (PyStr × List ℕ) :=
  [(strToChars "This", [0]), (strToChars "is", [1]),
    (strToChars "a", [2]), (strToChars "test", [3])]

/-! Facts about splitOnChar used for the normalizer claims. -/
theorem splitOnChar_cons_sep (sep : Char) (cs : PyStr) :
    splitOnChar sep (sep :: cs) = [] :: splitOnChar sep cs := by
  simp [splitOnChar]

theorem splitOnChar_cons_ne {sep c : Char} (h : c ≠ sep) {cs : PyStr}
    {s : PyStr} {ss : List PyStr} (hr : splitOnChar sep cs = s :: ss) :
    splitOnChar sep (c :: cs) = (c :: s) :: ss := by
  simp [splitOnChar, h, hr]

theorem splitOnChar_ne_nil (sep : Char) (l : PyStr) : splitOnChar sep l ≠ [] := by
  cases l with
  | nil => simp [splitOnChar]
  | cons c cs =>
      by_cases h : c = sep
      · rw [h, splitOnChar_cons_sep]
        simp
      · cases hr : splitOnChar sep cs with
        | nil => simp [splitOnChar, h, hr]
        | cons s ss =>
            rw [splitOnChar_cons_ne h hr]
            simp

theorem getLastD_of_ne_nil {α : Type} {l : List α} (h : l ≠ []) (a b : α) :
    l.getLastD a = l.getLastD b := by
  cases l with
  | nil => exact absurd rfl h
  | cons x xs =>
      rw [List.getLastD_cons, List.getLastD_cons]

/-- The final segment produced by splitOnChar never contains the separator. -/
theorem sep_not_mem_last_segment (sep : Char) (l : PyStr) :
    sep ∉ (splitOnChar sep l).getLastD [] := by
  induction l with
  | nil => simp [splitOnChar]
  | cons c cs ih =>
      by_cases h : c = sep
      · rw [h, splitOnChar_cons_sep, List.getLastD_cons,
          getLastD_of_ne_nil (splitOnChar_ne_nil sep cs) [] []]
        exact ih
      · cases hr : splitOnChar sep cs with
        | nil => exact absurd hr (splitOnChar_ne_nil sep cs)
        | cons s ss =>
            rw [splitOnChar_cons_ne h hr]
            rw [hr] at ih
            cases ss with
            | nil =>
                simp only [List.getLastD_cons, List.getLastD] at ih ⊢
                intro hmem
                rcases List.mem_cons.mp hmem with h1 | h2
                · exact h h1.symm
                · exact ih h2
            | cons t ts =>
                rw [List.getLastD_cons] at ih ⊢
                rw [getLastD_of_ne_nil (by simp) (c :: s) s]
                exact ih

/-- If a non-empty string does not end with the separator, its final
splitOnChar segment is non-empty. -/
theorem last_segment_ne_nil (sep : Char) (l : PyStr) (hne : l ≠ [])
    (hend : l.getLast? ≠ some sep) :
    (splitOnChar sep l).getLastD [] ≠ [] := by
  induction l with
  | nil => exact absurd rfl hne
  | cons c cs ih =>
      cases cs with
      | nil =>
          have hc : c ≠ sep := by
            intro h
            exact hend (by simp [List.getLast?, h])
          simp [splitOnChar, hc]
      | cons d ds =>
          have hend' : (d :: ds).getLast? ≠ some sep := by
            rwa [List.getLast?_cons_cons] at hend
          have ih' := ih (by simp) hend'
          by_cases h : c = sep
          · rw [h, splitOnChar_cons_sep, List.getLastD_cons,
              getLastD_of_ne_nil (splitOnChar_ne_nil sep (d :: ds)) [] []]
            exact ih'
          · cases hr : splitOnChar sep (d :: ds) with
            | nil => exact absurd hr (splitOnChar_ne_nil sep (d :: ds))
            | cons s ss =>
                rw [splitOnChar_cons_ne h hr]
                rw [hr] at ih'
                cases ss with
                | nil => simp
                | cons t ts =>
                    rw [List.getLastD_cons] at ih' ⊢
                    rw [getLastD_of_ne_nil (by simp) (c :: s) s]
                    exact ih'

/-! Basic facts about the dict model. -/
theorem alKeys_append {α : Type} (m1 m2 : List (String × α)) :
    alKeys (m1 ++ m2) = alKeys m1 ++ alKeys m2 := by
  simp [alKeys]

theorem alKeys_map_fst_preserving {α β : Type} (m : List (String × α))
    (f : (String × α) → (String × β)) (hf : ∀ q, (f q).1 = q.1) :
    alKeys (m.map f) = alKeys m := by
  simp only [alKeys, List.map_map]
  exact List.map_congr_left (fun q _ => hf q)

theorem alInsert_of_not_mem {α : Type} {m : List (String × α)} {key : String}
    (h : key ∉ alKeys m) (v : α) : alInsert m key v = m ++ [(key, v)] := by
  simp [alInsert, h]

theorem alInsert_of_mem {α : Type} {m : List (String × α)} {key : String}
    (h : key ∈ alKeys m) (v : α) :
    alInsert m key v = m.map (fun p => if p.1 = key then (p.1, v) else p) := by
  simp [alInsert, h]

theorem alGetD_of_not_mem {α : Type} {m : List (String × α)} {key : String}
    (h : key ∉ alKeys m) (dflt : α) : alGetD m key dflt = dflt := by
  have hfind : m.find? (fun p => p.1 == key) = none := by
    apply List.find?_eq_none.mpr
    intro p hp
    simp only [beq_iff_eq]
    intro hc
    exact h (hc ▸ List.mem_map_of_mem Prod.fst hp)
  simp [alGetD, hfind]

theorem alGetD_of_mem {α : Type} {m : List (String × α)}
    (hN : (alKeys m).Nodup) {q : String × α} (hq : q ∈ m) (dflt : α) :
    alGetD m q.1 dflt = q.2 := by
  induction m with
  | nil => exact absurd hq (List.not_mem_nil q)
  | cons r rs ih =>
      rcases List.mem_cons.mp hq with h1 | h2
      · subst h1
        simp [alGetD, List.find?]
      · have hN' : (alKeys rs).Nodup := (List.nodup_cons.mp hN).2
        have hr : r.1 ∉ alKeys rs := (List.nodup_cons.mp hN).1
        have hne : r.1 ≠ q.1 := by
          intro hc
          exact hr (hc ▸ List.mem_map_of_mem Prod.fst h2)
        have : (r.1 == q.1) = false := beq_false_of_ne hne
        simp only [alGetD, List.find?, this]
        exact ih hN' h2

/-! Facts about assignScores, contribFrom and newEntries. -/
theorem assignScores_keys (w : ℚ) (k : ℕ) :
    ∀ (n : ℕ) (l : ScoreMap), alKeys (assignScores w k n l) = alKeys l := by
  intro n l
  induction l generalizing n with
  | nil => rfl
  | cons p ps ih =>
      have := ih (n + 1)
      simp only [alKeys] at this
      simp [assignScores, alKeys, this]

theorem rankFrom_eq_none {id : String} :
    ∀ {l : ScoreMap} (n : ℕ), id ∉ alKeys l → rankFrom n id l = none := by
  intro l
  induction l with
  | nil => intro n _; rfl
  | cons p ps ih =>
      intro n h
      have h1 : p.1 ≠ id := by
        intro hc
        exact h (hc ▸ List.mem_map_of_mem Prod.fst (List.mem_cons_self p ps))
      have h2 : id ∉ alKeys ps := fun hc => h (List.mem_cons_of_mem _ hc)
      simp [rankFrom, h1, ih _ h2]

theorem contribFrom_not_mem {w : ℚ} {k : ℕ} {n : ℕ} {id : String} {l : ScoreMap}
    (h : id ∉ alKeys l) : contribFrom w k n id l = 0 := by
  simp [contribFrom, rankFrom_eq_none n h]

theorem contribFrom_zero_weight (k n : ℕ) (id : String) (l : ScoreMap) :
    contribFrom 0 k n id l = 0 := by
  unfold contribFrom
  cases rankFrom n id l with
  | none => rfl
  | some r => simp

theorem contribFrom_cons_self (w : ℚ) (k n : ℕ) (p : String × ℚ) (ps : ScoreMap) :
    contribFrom w k n p.1 (p :: ps) = w / ((k + n : ℕ) : ℚ) := by
  simp [contribFrom, rankFrom]

theorem contribFrom_cons_ne {id : String} {p : String × ℚ} (h : p.1 ≠ id)
    (w : ℚ) (k n : ℕ) (ps : ScoreMap) :
    contribFrom w k n id (p :: ps) = contribFrom w k (n + 1) id ps := by
  simp [contribFrom, rankFrom, h]

theorem rankFrom_mem {id : String} :
    ∀ {l : ScoreMap} (n : ℕ), id ∈ alKeys l →
      ∃ r, rankFrom n id l = some r ∧ n ≤ r := by
  intro l
  induction l with
  | nil => intro n h; exact absurd h (List.not_mem_nil id)
  | cons p ps ih =>
      intro n h
      by_cases h1 : p.1 = id
      · exact ⟨n, by simp [rankFrom, h1], le_refl n⟩
      · have h2 : id ∈ alKeys ps := by
          rcases List.mem_cons.mp h with hc | hc
          · exact absurd hc.symm h1
          · exact hc
        obtain ⟨r, hr, hnr⟩ := ih (n + 1) h2
        exact ⟨r, by simp [rankFrom, h1, hr], le_trans (Nat.le_succ n) hnr⟩

theorem contribFrom_pos {w : ℚ} (hw : 0 < w) {k n : ℕ} (hn : 1 ≤ n)
    {id : String} {l : ScoreMap} (h : id ∈ alKeys l) :
    0 < contribFrom w k n id l := by
  obtain ⟨r, hr, hnr⟩ := rankFrom_mem n h
  have hkr : (0 : ℚ) < ((k + r : ℕ) : ℚ) := by
    have : 1 ≤ k + r := le_trans (le_trans hn hnr) (Nat.le_add_left r k)
    exact_mod_cast Nat.lt_of_lt_of_le Nat.zero_lt_one this
  simp only [contribFrom, hr]
  exact div_pos hw hkr

theorem assignScores_mem_exists {w : ℚ} {k : ℕ} {q : String × ℚ} :
    ∀ {n : ℕ} {l : ScoreMap}, q ∈ assignScores w k n l →
      ∃ m, n ≤ m ∧ q.2 = w / ((k + m : ℕ) : ℚ) := by
  intro n l
  induction l generalizing n with
  | nil => intro h; exact absurd h (List.not_mem_nil q)
  | cons p ps ih =>
      intro h
      rcases List.mem_cons.mp h with h1 | h2
      · exact ⟨n, le_refl n, by rw [h1]⟩
      · obtain ⟨m, hm, hq⟩ := ih h2
        exact ⟨m, le_trans (Nat.le_succ n) hm, hq⟩

theorem assignScores_mem_score {w : ℚ} {k : ℕ} :
    ∀ {n : ℕ} {l : ScoreMap}, (alKeys l).Nodup → ∀ {q : String × ℚ},
      q ∈ assignScores w k n l → q.2 = contribFrom w k n q.1 l := by
  intro n l
  induction l generalizing n with
  | nil => intro _ q h; exact absurd h (List.not_mem_nil q)
  | cons p ps ih =>
      intro hN q h
      have hp : p.1 ∉ alKeys ps := (List.nodup_cons.mp hN).1
      rcases List.mem_cons.mp h with h1 | h2
      · rw [h1]
        exact (contribFrom_cons_self w k n p ps).symm
      · have hq : q.1 ∈ alKeys ps := by
          have := List.mem_map_of_mem Prod.fst h2
          rwa [← alKeys, assignScores_keys] at this
        have hne : p.1 ≠ q.1 := fun hc => hp (hc ▸ hq)
        rw [contribFrom_cons_ne hne]
        exact ih (List.nodup_cons.mp hN).2 h2

theorem assignScores_pairwise {w : ℚ} (hw : 0 < w) (k : ℕ) :
    ∀ {n : ℕ}, 1 ≤ n → ∀ (l : ScoreMap),
      (assignScores w k n l).Pairwise (fun a b => b.2 < a.2) := by
  intro n hn l
  induction l generalizing n with
  | nil => exact List.Pairwise.nil
  | cons p ps ih =>
      refine List.pairwise_cons.mpr ⟨?_, ih (le_trans hn (Nat.le_succ n))⟩
      intro q hq
      obtain ⟨m, hm, hq2⟩ := assignScores_mem_exists hq
      have h1 : (0 : ℚ) < ((k + n : ℕ) : ℚ) := by
        exact_mod_cast Nat.lt_of_lt_of_le Nat.zero_lt_one
          (le_trans hn (Nat.le_add_left n k))
      have h2 : ((k + n : ℕ) : ℚ) < ((k + m : ℕ) : ℚ) := by
        exact_mod_cast Nat.add_lt_add_left (Nat.lt_of_succ_le hm) k
      calc q.2 = w / ((k + m : ℕ) : ℚ) := hq2
    _ < w / ((k + n : ℕ) : ℚ) := div_lt_div_of_pos_left hw h1 h2

theorem newEntries_keys_sublist (w : ℚ) (k : ℕ) (dk : List String) :
    ∀ (n : ℕ) (l : ScoreMap), List.Sublist (alKeys (newEntries w k dk n l)) (alKeys l) := by
  intro n l
  induction l generalizing n with
  | nil => exact List.Sublist.refl []
  | cons p ps ih =>
      by_cases h : p.1 ∈ dk
      · simp only [newEntries, if_pos h]
        exact (ih (n + 1)).trans (List.sublist_cons_self p.1 (alKeys ps))
      · simp only [newEntries, if_neg h, alKeys, List.map_cons]
        exact List.Sublist.cons₂ p.1 (ih (n + 1))

theorem newEntries_append_key {x : String} {w : ℚ} {k : ℕ} (dk : List String) :
    ∀ (n : ℕ) {l : ScoreMap}, x ∉ alKeys l →
      newEntries w k (dk ++ [x]) n l = newEntries w k dk n l := by
  intro n l
  induction l generalizing n with
  | nil => intro _; rfl
  | cons p ps ih =>
      intro hx
      have h1 : p.1 ≠ x := by
        intro hc
        exact hx (hc ▸ List.mem_map_of_mem Prod.fst (List.mem_cons_self p ps))
      have h2 : x ∉ alKeys ps := fun hc => hx (List.mem_cons_of_mem _ hc)
      have hmem : (p.1 ∈ dk ++ [x]) = (p.1 ∈ dk) := by
        simp [List.mem_append, h1]
      by_cases h : p.1 ∈ dk
      · simp only [newEntries, if_pos h, if_pos (hmem ▸ h : p.1 ∈ dk ++ [x])]
        exact ih (n + 1) h2
      · have h' : p.1 ∉ dk ++ [x] := by
          simp [List.mem_append, h, h1]
        simp only [newEntries, if_neg h, if_neg h']
        rw [ih (n + 1) h2]

theorem newEntries_mem {w : ℚ} {k : ℕ} {dk : List String} :
    ∀ {n : ℕ} {l : ScoreMap}, (alKeys l).Nodup → ∀ {q : String × ℚ},
      q ∈ newEntries w k dk n l →
        q.1 ∉ dk ∧ q.2 = contribFrom w k n q.1 l := by
  intro n l
  induction l generalizing n with
  | nil => intro _ q h; exact absurd h (List.not_mem_nil q)
  | cons p ps ih =>
      intro hN q hq
      have hp : p.1 ∉ alKeys ps := (List.nodup_cons.mp hN).1
      have hN' : (alKeys ps).Nodup := (List.nodup_cons.mp hN).2
      by_cases h : p.1 ∈ dk
      · rw [newEntries, if_pos h] at hq
        obtain ⟨hdk, hval⟩ := ih hN' hq
        have hkey : q.1 ∈ alKeys (newEntries w k dk (n + 1) ps) :=
          List.mem_map_of_mem Prod.fst hq
        have hq1 : q.1 ∈ alKeys ps := (newEntries_keys_sublist w k dk (n + 1) ps).mem hkey
        have hne : p.1 ≠ q.1 := fun hc => hp (hc ▸ hq1)
        exact ⟨hdk, by rw [contribFrom_cons_ne hne]; exact hval⟩
      · rw [newEntries, if_neg h] at hq
        rcases List.mem_cons.mp hq with h1 | h2
        · refine ⟨by rw [h1]; exact h, ?_⟩
          rw [h1]
          exact (contribFrom_cons_self w k n p ps).symm
        · obtain ⟨hdk, hval⟩ := ih hN' h2
          have hkey : q.1 ∈ alKeys (newEntries w k dk (n + 1) ps) :=
            List.mem_map_of_mem Prod.fst h2
          have hq1 : q.1 ∈ alKeys ps := (newEntries_keys_sublist w k dk (n + 1) ps).mem hkey
          have hne : p.1 ≠ q.1 := fun hc => hp (hc ▸ hq1)
          exact ⟨hdk, by rw [contribFrom_cons_ne hne]; exact hval⟩

theorem newEntries_mem_keys {w : ℚ} {k : ℕ} {dk : List String} {id : String} :
    ∀ {n : ℕ} {l : ScoreMap},
      (id ∈ alKeys (newEntries w k dk n l) ↔ id ∈ alKeys l ∧ id ∉ dk) := by
  intro n l
  induction l generalizing n with
  | nil => simp [newEntries, alKeys]
  | cons p ps ih =>
      by_cases h : p.1 ∈ dk
      · rw [newEntries, if_pos h]
        constructor
        · intro hm
          obtain ⟨hl, hdk⟩ := ih.mp hm
          exact ⟨List.mem_cons_of_mem _ hl, hdk⟩
        · rintro ⟨hl, hdk⟩
          rcases List.mem_cons.mp hl with h1 | h2
          · exact absurd (h1 ▸ h) hdk
          · exact ih.mpr ⟨h2, hdk⟩
      · rw [newEntries, if_neg h]
        constructor
        · intro hm
          rcases List.mem_cons.mp hm with h1 | h2
          · exact ⟨h1 ▸ List.mem_cons_self p.1 (alKeys ps), h1 ▸ h⟩
          · obtain ⟨hl, hdk⟩ := ih.mp h2
            exact ⟨List.mem_cons_of_mem _ hl, hdk⟩
        · rintro ⟨hl, hdk⟩
          rcases List.mem_cons.mp hl with h1 | h2
          · exact h1 ▸ List.mem_cons_self id _
          · exact List.mem_cons_of_mem _ (ih.mpr ⟨h2, hdk⟩)

/-! Characterizations of the two RRF loops. -/
theorem addVectorScores_eq (w : ℚ) (k : ℕ) :
    ∀ (n : ℕ) (l d : ScoreMap), (alKeys l).Nodup →
      (∀ p ∈ l, p.1 ∉ alKeys d) →
      addVectorScores w k n l d = d ++ assignScores w k n l := by
  intro n l
  induction l generalizing n with
  | nil => intro d _ _; simp [addVectorScores, assignScores]
  | cons p ps ih =>
      intro d hN hD
      have hp : p.1 ∉ alKeys d := hD p (List.mem_cons_self p ps)
      rw [addVectorScores, alInsert_of_not_mem hp]
      have hD' : ∀ q ∈ ps, q.1 ∉ alKeys (d ++ [(p.1, w / ((k + n : ℕ) : ℚ))]) := by
        intro q hq
        rw [alKeys_append]
        intro hc
        rcases List.mem_append.mp hc with h1 | h2
        · exact hD q (List.mem_cons_of_mem p hq) h1
        · have hq1 : q.1 ∈ alKeys ps := List.mem_map_of_mem Prod.fst hq
          have : q.1 = p.1 := by simpa [alKeys] using h2
          exact (List.nodup_cons.mp hN).1 (this ▸ hq1)
      rw [ih (n + 1) _ (List.nodup_cons.mp hN).2 hD']
      simp [assignScores, List.append_assoc]

theorem addFulltextScores_eq (w : ℚ) (k : ℕ) :
    ∀ (n : ℕ) (l d : ScoreMap), (alKeys d).Nodup → (alKeys l).Nodup →
      addFulltextScores w k n l d =
        d.map (fun q => (q.1, q.2 + contribFrom w k n q.1 l)) ++
          newEntries w k (alKeys d) n l := by
  intro n l
  induction l generalizing n with
  | nil =>
      intro d _ _
      simp [addFulltextScores, newEntries, contribFrom, rankFrom]
  | cons p ps ih =>
      intro d hdN hN
      have hpps : p.1 ∉ alKeys ps := (List.nodup_cons.mp hN).1
      have hN' : (alKeys ps).Nodup := (List.nodup_cons.mp hN).2
      by_cases hmem : p.1 ∈ alKeys d
      · -- the key is already present: in-place update, no new entry
        rw [addFulltextScores, alInsert_of_mem hmem]
        set c := w / ((k + n : ℕ) : ℚ) with hc
        set d' := d.map (fun q => if q.1 = p.1 then (q.1, alGetD d p.1 0 + c) else q) with hd'
        have hkeys : alKeys d' = alKeys d := by
          apply alKeys_map_fst_preserving
          intro q
          by_cases hq : q.1 = p.1 <;> simp [hq]
        rw [ih (n + 1) d' (hkeys ▸ hdN) hN']
        congr 1
        · -- the mapped part collapses to a single map over d
          rw [hd', List.map_map]
          apply List.map_congr_left
          intro q hq
          by_cases hq1 : q.1 = p.1
          · have hget : alGetD d p.1 0 = q.2 := hq1 ▸ alGetD_of_mem hdN hq 0
            have hzero : contribFrom w k (n + 1) q.1 ps = 0 :=
              contribFrom_not_mem (hq1 ▸ hpps)
            simp only [Function.comp_apply, if_pos hq1, hzero, hget]
            rw [hq1, contribFrom_cons_self]
            simp [hc]
          · have hne : p.1 ≠ q.1 := fun hcc => hq1 hcc.symm
            simp only [Function.comp_apply, if_neg hq1]
            rw [contribFrom_cons_ne hne]
        · rw [hkeys, newEntries, if_pos hmem]
      · -- fresh key: append, then the tail sees the enlarged dict
        rw [addFulltextScores, alGetD_of_not_mem hmem, alInsert_of_not_mem hmem]
        set c := w / ((k + n : ℕ) : ℚ) with hc
        have hdN' : (alKeys (d ++ [(p.1, 0 + c)])).Nodup := by
          rw [alKeys_append]
          apply List.Nodup.append hdN (by simp [alKeys])
          intro x hx hx2
          have : x = p.1 := by simpa [alKeys] using hx2
          exact hmem (this ▸ hx)
        rw [ih (n + 1) _ hdN' hN']
        rw [alKeys_append]
        have hkeys1 : alKeys [(p.1, 0 + c)] = [p.1] := by simp [alKeys]
        rw [hkeys1, newEntries_append_key (alKeys d) (n + 1) hpps]
        rw [List.map_append]
        have hmap : d.map (fun q => (q.1, q.2 + contribFrom w k (n + 1) q.1 ps)) =
            d.map (fun q => (q.1, q.2 + contribFrom w k n q.1 (p :: ps))) := by
          apply List.map_congr_left
          intro q hq
          have hne : p.1 ≠ q.1 := by
            intro hcc
            exact hmem (hcc ▸ List.mem_map_of_mem Prod.fst hq)
          rw [contribFrom_cons_ne hne]
        rw [hmap]
        have hsingle : [(p.1, 0 + c)].map
            (fun q => (q.1, q.2 + contribFrom w k (n + 1) q.1 ps)) = [(p.1, c)] := by
          simp [contribFrom_not_mem hpps]
        rw [hsingle]
        rw [newEntries, if_neg hmem, List.append_assoc]
        simp [hc]

/-! Facts about the stable descending sort. -/
theorem sortByScoreDesc_perm (m : ScoreMap) : List.Perm (sortByScoreDesc m) m :=
  List.perm_insertionSort scoreGE m

theorem sortByScoreDesc_pairwise (m : ScoreMap) :
    (sortByScoreDesc m).Pairwise (fun a b => b.2 ≤ a.2) :=
  List.sorted_insertionSort scoreGE m

theorem sortByScoreDesc_keys_perm (m : ScoreMap) :
    List.Perm (alKeys (sortByScoreDesc m)) (alKeys m) :=
  (sortByScoreDesc_perm m).map Prod.fst

theorem sortByScoreDesc_keys_nodup {m : ScoreMap} (h : (alKeys m).Nodup) :
    (alKeys (sortByScoreDesc m)).Nodup :=
  ((sortByScoreDesc_keys_perm m).nodup_iff).mpr h

/-- The dict built by the two RRF loops, characterized: each vector entry
keeps its vector contribution plus its fulltext contribution, in vector
rank order, followed by the fulltext-only entries in fulltext rank order. -/
theorem rrf_inner_dict (v l : ScoreMap) (vw lw : ℚ) (k : ℕ)
    (hv : (alKeys v).Nodup) (hl : (alKeys l).Nodup) :
    addFulltextScores lw k 1 (sortByScoreDesc l)
        (addVectorScores vw k 1 (sortByScoreDesc v) []) =
      (assignScores vw k 1 (sortByScoreDesc v)).map
        (fun q => (q.1, q.2 + contribFrom lw k 1 q.1 (sortByScoreDesc l))) ++
        newEntries lw k (alKeys (sortByScoreDesc v)) 1 (sortByScoreDesc l) := by
  have hv' := sortByScoreDesc_keys_nodup hv
  have hl' := sortByScoreDesc_keys_nodup hl
  have h1 : addVectorScores vw k 1 (sortByScoreDesc v) [] =
      assignScores vw k 1 (sortByScoreDesc v) := by
    rw [addVectorScores_eq vw k 1 _ [] hv' (by intro p _; simp [alKeys])]
    rfl
  rw [h1, addFulltextScores_eq lw k 1 _ _ (by rw [assignScores_keys]; exact hv') hl',
    assignScores_keys]

/-- Every entry of the fused output carries exactly the sum of its two
RRF contributions. -/
theorem rrf_mem_score {v l : ScoreMap} {vw lw : ℚ} {k : ℕ}
    (hv : (alKeys v).Nodup) (hl : (alKeys l).Nodup) {p : String × ℚ}
    (hp : p ∈ reciprocal_rank_fusion v l vw lw k) :
    p.2 = rrfContribution v vw k p.1 + rrfContribution l lw k p.1 := by
  have hv' := sortByScoreDesc_keys_nodup hv
  have hl' := sortByScoreDesc_keys_nodup hl
  have hp2 : p ∈ addFulltextScores lw k 1 (sortByScoreDesc l)
      (addVectorScores vw k 1 (sortByScoreDesc v) []) := by
    have := (List.mem_insertionSort scoreGE).mp hp
    exact this
  rw [rrf_inner_dict v l vw lw k hv hl] at hp2
  rcases List.mem_append.mp hp2 with hmap | hnew
  · obtain ⟨q, hq, hpq⟩ := List.mem_map.mp hmap
    have hq2 : q.2 = contribFrom vw k 1 q.1 (sortByScoreDesc v) :=
      assignScores_mem_score hv' hq
    rw [← hpq]
    simp only [rrfContribution]
    rw [hq2]
  · obtain ⟨hdk, hval⟩ := newEntries_mem hl' hnew
    have hzero : contribFrom vw k 1 p.1 (sortByScoreDesc v) = 0 :=
      contribFrom_not_mem hdk
    simp only [rrfContribution, hzero, hval, zero_add]

/-- The fused output is sorted descending by fused score. -/
theorem rrf_sorted (v l : ScoreMap) (vw lw : ℚ) (k : ℕ) :
    (reciprocal_rank_fusion v l vw lw k).Pairwise (fun a b => b.2 ≤ a.2) :=
  List.sorted_insertionSort scoreGE _

theorem rrf_keys_append (v l : ScoreMap) (vw lw : ℚ) (k : ℕ)
    (hv : (alKeys v).Nodup) (hl : (alKeys l).Nodup) :
    alKeys (addFulltextScores lw k 1 (sortByScoreDesc l)
        (addVectorScores vw k 1 (sortByScoreDesc v) [])) =
      alKeys (sortByScoreDesc v) ++
        alKeys (newEntries lw k (alKeys (sortByScoreDesc v)) 1 (sortByScoreDesc l)) := by
  rw [rrf_inner_dict v l vw lw k hv hl, alKeys_append]
  congr 1
  rw [alKeys_map_fst_preserving (assignScores vw k 1 (sortByScoreDesc v))
    (fun q => (q.1, q.2 + contribFrom lw k 1 q.1 (sortByScoreDesc l)))
    (fun q => rfl), assignScores_keys]

/-- The id set of the fused output: union of the two input key sets. -/
theorem rrf_keys_mem (v l : ScoreMap) (vw lw : ℚ) (k : ℕ)
    (hv : (alKeys v).Nodup) (hl : (alKeys l).Nodup) (id : String) :
    id ∈ alKeys (reciprocal_rank_fusion v l vw lw k) ↔
      id ∈ alKeys v ∨ id ∈ alKeys l := by
  have hperm : List.Perm (alKeys (reciprocal_rank_fusion v l vw lw k))
      (alKeys (addFulltextScores lw k 1 (sortByScoreDesc l)
        (addVectorScores vw k 1 (sortByScoreDesc v) []))) :=
    sortByScoreDesc_keys_perm _
  rw [hperm.mem_iff, rrf_keys_append v l vw lw k hv hl, List.mem_append,
    newEntries_mem_keys, (sortByScoreDesc_keys_perm v).mem_iff,
    (sortByScoreDesc_keys_perm l).mem_iff]
  constructor
  · rintro (h1 | ⟨h2, _⟩)
    · exact Or.inl h1
    · exact Or.inr h2
  · rintro (h1 | h2)
    · exact Or.inl h1
    · by_cases hv2 : id ∈ alKeys (sortByScoreDesc v)
      · exact Or.inl ((sortByScoreDesc_keys_perm v).mem_iff.mp hv2)
      · refine Or.inr ⟨h2, ?_⟩
        rwa [(sortByScoreDesc_keys_perm v).mem_iff] at hv2

/-- The fused output never repeats an id. -/
theorem rrf_keys_nodup (v l : ScoreMap) (vw lw : ℚ) (k : ℕ)
    (hv : (alKeys v).Nodup) (hl : (alKeys l).Nodup) :
    (alKeys (reciprocal_rank_fusion v l vw lw k)).Nodup := by
  have hv' := sortByScoreDesc_keys_nodup hv
  have hl' := sortByScoreDesc_keys_nodup hl
  have hperm : List.Perm (alKeys (reciprocal_rank_fusion v l vw lw k))
      (alKeys (addFulltextScores lw k 1 (sortByScoreDesc l)
        (addVectorScores vw k 1 (sortByScoreDesc v) []))) :=
    sortByScoreDesc_keys_perm _
  rw [hperm.nodup_iff, rrf_keys_append v l vw lw k hv hl]
  apply List.Nodup.append hv'
  · exact (newEntries_keys_sublist lw k _ 1 _).nodup hl'
  · intro x hx hx2
    exact (newEntries_mem_keys.mp hx2).2 hx

/-- C1: for every pair of input score maps, weights and k, each id's
fused score equals vectorWeight/(k + r_v) when it sits at 1-based rank
r_v of the score-descending vector ranking, plus lexicalWeight/(k + r_l)
for its lexical rank, with absent sources contributing 0; and the
returned list is sorted descending by fused score. -/
theorem rrf_fused_scores (v l : ScoreMap) (vw lw : ℚ) (k : ℕ)
    (hv : (alKeys v).Nodup) (hl : (alKeys l).Nodup) :
    (∀ p ∈ reciprocal_rank_fusion v l vw lw k,
        p.2 = rrfContribution v vw k p.1 + rrfContribution l lw k p.1) ∧
    (reciprocal_rank_fusion v l vw lw k).Pairwise (fun a b => b.2 ≤ a.2) :=
  ⟨fun _ hp => rrf_mem_score hv hl hp, rrf_sorted v l vw lw k⟩

/-- Witness for C1 at concrete inputs. -/
theorem rrf_fused_scores_witness :
    ((alKeys sampleVectorHits).Nodup ∧ (alKeys sampleFulltextHits).Nodup) ∧
    ((∀ p ∈ reciprocal_rank_fusion sampleVectorHits sampleFulltextHits (1/2) (1/2) 60,
        p.2 = rrfContribution sampleVectorHits (1/2) 60 p.1 +
          rrfContribution sampleFulltextHits (1/2) 60 p.1) ∧
      (reciprocal_rank_fusion sampleVectorHits sampleFulltextHits
          (1/2) (1/2) 60).Pairwise (fun a b => b.2 ≤ a.2)) :=
  ⟨⟨by decide, by decide⟩,
    rrf_fused_scores sampleVectorHits sampleFulltextHits (1/2) (1/2) 60
      (by decide) (by decide)⟩

/-- C10: for every pair of input score maps, any weights and any k, the
ids of the fused list are exactly the union of the two input key sets,
each occurring exactly once. -/
theorem rrf_id_set (v l : ScoreMap) (vw lw : ℚ) (k : ℕ)
    (hv : (alKeys v).Nodup) (hl : (alKeys l).Nodup) :
    (alKeys (reciprocal_rank_fusion v l vw lw k)).Nodup ∧
    ∀ id, id ∈ alKeys (reciprocal_rank_fusion v l vw lw k) ↔
      id ∈ alKeys v ∨ id ∈ alKeys l :=
  ⟨rrf_keys_nodup v l vw lw k hv hl, fun id => rrf_keys_mem v l vw lw k hv hl id⟩

/-- Witness for C10 at concrete inputs, with one weight zero. -/
theorem rrf_id_set_witness :
    ((alKeys sampleVectorHits).Nodup ∧ (alKeys sampleFulltextHits).Nodup) ∧
    ((alKeys (reciprocal_rank_fusion sampleVectorHits sampleFulltextHits 1 0 60)).Nodup ∧
      ∀ id, id ∈ alKeys (reciprocal_rank_fusion sampleVectorHits sampleFulltextHits 1 0 60) ↔
        id ∈ alKeys sampleVectorHits ∨ id ∈ alKeys sampleFulltextHits) :=
  ⟨⟨by decide, by decide⟩,
    rrf_id_set sampleVectorHits sampleFulltextHits 1 0 60 (by decide) (by decide)⟩

/-! Machinery for the weight-extreme analysis. -/
/-- A strictly descending list equals any weakly descending permutation
of itself. -/
theorem eq_of_perm_of_sorted_strict :
    ∀ {A B : ScoreMap}, List.Perm A B →
      A.Pairwise (fun a b => b.2 < a.2) →
      B.Pairwise (fun a b => b.2 ≤ a.2) → A = B := by
  intro A
  induction A with
  | nil =>
      intro B hp _ _
      exact (hp.symm.eq_nil).symm
  | cons a A' ih =>
      intro B hp hA hB
      cases B with
      | nil => exact absurd hp.eq_nil (by simp)
      | cons b B' =>
          have hab : a = b := by
            by_contra hne
            have haB : a ∈ b :: B' := hp.mem_iff.mp (List.mem_cons_self a A')
            have hbA : b ∈ a :: A' := hp.mem_iff.mpr (List.mem_cons_self b B')
            have haB' : a ∈ B' := by
              rcases List.mem_cons.mp haB with h | h
              · exact absurd h hne
              · exact h
            have hbA' : b ∈ A' := by
              rcases List.mem_cons.mp hbA with h | h
              · exact absurd h.symm hne
              · exact h
            have h1 : b.2 < a.2 := (List.pairwise_cons.mp hA).1 b hbA'
            have h2 : a.2 ≤ b.2 := (List.pairwise_cons.mp hB).1 a haB'
            exact absurd (lt_of_le_of_lt h2 h1) (lt_irrefl a.2)
          subst hab
          have hp' : List.Perm A' B' := hp.cons_inv
          rw [ih hp' (List.pairwise_cons.mp hA).2 (List.pairwise_cons.mp hB).2]

/-- A score map whose values are a function of the key is the key list
mapped through that function. -/
theorem scoremap_eq_keys_map {A : ScoreMap} (f : String → ℚ)
    (hA : ∀ q ∈ A, q.2 = f q.1) :
    A = (alKeys A).map (fun id => (id, f id)) := by
  induction A with
  | nil => rfl
  | cons p ps ih =>
      have hp := hA p (List.mem_cons_self p ps)
      have htail := ih (fun q hq => hA q (List.mem_cons_of_mem p hq))
      simp only [alKeys, List.map_cons] at htail ⊢
      rw [← hp, ← htail]

/-- Two score maps whose values are the same function of the key and
whose key lists are permutations are themselves permutations. -/
theorem perm_of_value_fn {A B : ScoreMap} (f : String → ℚ)
    (hA : ∀ q ∈ A, q.2 = f q.1) (hB : ∀ q ∈ B, q.2 = f q.1)
    (hk : List.Perm (alKeys A) (alKeys B)) : List.Perm A B := by
  rw [scoremap_eq_keys_map f hA, scoremap_eq_keys_map f hB]
  exact hk.map _

/-- Key membership in the nonzero-score filter of a value-functional map. -/
theorem mem_keys_filter_nonzero {m : ScoreMap} (f : String → ℚ)
    (hm : ∀ q ∈ m, q.2 = f q.1) (id : String) :
    id ∈ alKeys (m.filter (fun p => decide (p.2 ≠ 0))) ↔
      id ∈ alKeys m ∧ f id ≠ 0 := by
  constructor
  · intro h
    obtain ⟨q, hq, hq1⟩ := List.mem_map.mp h
    have hq2 := List.mem_filter.mp hq
    refine ⟨hq1 ▸ List.mem_map_of_mem Prod.fst hq2.1, ?_⟩
    have := hm q hq2.1
    rw [← hq1, ← this]
    simpa using hq2.2
  · rintro ⟨h1, h2⟩
    obtain ⟨q, hq, hq1⟩ := List.mem_map.mp h1
    have hval : q.2 = f id := hq1 ▸ hm q hq
    have : q ∈ m.filter (fun p => decide (p.2 ≠ 0)) :=
      List.mem_filter.mpr ⟨hq, by simp [hval, h2]⟩
    exact hq1 ▸ List.mem_map_of_mem Prod.fst this

/-- The nonzero-score part of the fused output equals any strictly
descending score map that carries exactly the ids with nonzero fused
score and their fused scores. -/
theorem rrf_filter_nonzero_eq (v l : ScoreMap) (vw lw : ℚ) (k : ℕ)
    (hv : (alKeys v).Nodup) (hl : (alKeys l).Nodup) (A : ScoreMap)
    (hA : ∀ q ∈ A, q.2 = rrfContribution v vw k q.1 + rrfContribution l lw k q.1)
    (hAstrict : A.Pairwise (fun a b => b.2 < a.2))
    (hAnodup : (alKeys A).Nodup)
    (hAmem : ∀ id, id ∈ alKeys A ↔ ((id ∈ alKeys v ∨ id ∈ alKeys l) ∧
        rrfContribution v vw k id + rrfContribution l lw k id ≠ 0)) :
    A = (reciprocal_rank_fusion v l vw lw k).filter (fun p => decide (p.2 ≠ 0)) := by
  set f : String → ℚ :=
    fun id => rrfContribution v vw k id + rrfContribution l lw k id with hf
  set out := reciprocal_rank_fusion v l vw lw k with hout
  have hOut : ∀ q ∈ out, q.2 = f q.1 := fun q hq => rrf_mem_score hv hl hq
  set B := out.filter (fun p => decide (p.2 ≠ 0)) with hB
  have hBval : ∀ q ∈ B, q.2 = f q.1 :=
    fun q hq => hOut q (List.mem_filter.mp hq).1
  have hBnodup : (alKeys B).Nodup := by
    have hsub : List.Sublist (alKeys B) (alKeys out) :=
      (List.filter_sublist out).map Prod.fst
    exact hsub.nodup (rrf_keys_nodup v l vw lw k hv hl)
  have hkeys : ∀ id, id ∈ alKeys A ↔ id ∈ alKeys B := by
    intro id
    rw [hAmem id, mem_keys_filter_nonzero f hOut id, rrf_keys_mem v l vw lw k hv hl id]
  have hperm : List.Perm (alKeys A) (alKeys B) :=
    (List.perm_ext_iff_of_nodup hAnodup hBnodup).mpr hkeys
  have hABperm : List.Perm A B := perm_of_value_fn f hA hBval hperm
  have hBsorted : B.Pairwise (fun a b => b.2 ≤ a.2) :=
    List.Pairwise.filter _ (rrf_sorted v l vw lw k)
  exact eq_of_perm_of_sorted_strict hABperm hAstrict hBsorted

theorem rrf_extreme_vector (v l : ScoreMap) (k : ℕ)
    (hv : (alKeys v).Nodup) (hl : (alKeys l).Nodup) :
    alKeys ((reciprocal_rank_fusion v l 1 0 k).filter (fun p => decide (p.2 ≠ 0))) =
      alKeys (sortByScoreDesc v) := by
  have hv' := sortByScoreDesc_keys_nodup hv
  have heq := rrf_filter_nonzero_eq v l 1 0 k hv hl
    (assignScores 1 k 1 (sortByScoreDesc v))
    (by
      intro q hq
      have h1 : q.2 = contribFrom 1 k 1 q.1 (sortByScoreDesc v) :=
        assignScores_mem_score hv' hq
      simp only [rrfContribution, contribFrom_zero_weight, add_zero]
      exact h1)
    (assignScores_pairwise one_pos k (le_refl 1) _)
    (by rw [assignScores_keys]; exact hv')
    (by
      intro id
      rw [assignScores_keys, (sortByScoreDesc_keys_perm v).mem_iff]
      simp only [rrfContribution, contribFrom_zero_weight, add_zero]
      constructor
      · intro hid
        refine ⟨Or.inl hid, ?_⟩
        have : id ∈ alKeys (sortByScoreDesc v) :=
          (sortByScoreDesc_keys_perm v).mem_iff.mpr hid
        exact ne_of_gt (contribFrom_pos one_pos (le_refl 1) this)
      · rintro ⟨_, hne⟩
        by_contra hid
        have : id ∉ alKeys (sortByScoreDesc v) := by
          rwa [(sortByScoreDesc_keys_perm v).mem_iff]
        exact hne (contribFrom_not_mem this))
  rw [← heq, assignScores_keys]

theorem rrf_extreme_fulltext (v l : ScoreMap) (k : ℕ)
    (hv : (alKeys v).Nodup) (hl : (alKeys l).Nodup) :
    alKeys ((reciprocal_rank_fusion v l 0 1 k).filter (fun p => decide (p.2 ≠ 0))) =
      alKeys (sortByScoreDesc l) := by
  have hl' := sortByScoreDesc_keys_nodup hl
  have heq := rrf_filter_nonzero_eq v l 0 1 k hv hl
    (assignScores 1 k 1 (sortByScoreDesc l))
    (by
      intro q hq
      have h1 : q.2 = contribFrom 1 k 1 q.1 (sortByScoreDesc l) :=
        assignScores_mem_score hl' hq
      simp only [rrfContribution, contribFrom_zero_weight, zero_add]
      exact h1)
    (assignScores_pairwise one_pos k (le_refl 1) _)
    (by rw [assignScores_keys]; exact hl')
    (by
      intro id
      rw [assignScores_keys, (sortByScoreDesc_keys_perm l).mem_iff]
      simp only [rrfContribution, contribFrom_zero_weight, zero_add]
      constructor
      · intro hid
        refine ⟨Or.inr hid, ?_⟩
        have : id ∈ alKeys (sortByScoreDesc l) :=
          (sortByScoreDesc_keys_perm l).mem_iff.mpr hid
        exact ne_of_gt (contribFrom_pos one_pos (le_refl 1) this)
      · rintro ⟨_, hne⟩
        by_contra hid
        have : id ∉ alKeys (sortByScoreDesc l) := by
          rwa [(sortByScoreDesc_keys_perm l).mem_iff]
        exact hne (contribFrom_not_mem this))
  rw [← heq, assignScores_keys]

unseal Rat.mul Rat.inv Rat.add Rat.sub in

/-- C2 counterexample: with vectorWeight 1 and lexicalWeight 0, an id
present only in the lexical input is still returned (with fused score 0),
so the returned list does not equal the vector-only ranking, and ids with
zero fused score are sorted into the output. -/
theorem rrf_weight_extremes_cex :
    alKeys (reciprocal_rank_fusion [] [("B", 1)] 1 0 60) ≠
      alKeys (sortByScoreDesc ([] : ScoreMap)) ∧
    (("B", (0 : ℚ)) ∈ reciprocal_rank_fusion [] [("B", 1)] 1 0 60) := by
  decide

/-- C2 (amended): with vectorWeight 1 and lexicalWeight 0 the entries of
the fused list with nonzero fused score carry, in order, exactly the ids
of the vector-only ranking (ids present only in the other source are not
dropped but trail with fused score 0, contrary to the spec's step 4);
symmetrically with the weights reversed. -/
theorem rrf_weight_extremes (v l : ScoreMap) (k : ℕ)
    (hv : (alKeys v).Nodup) (hl : (alKeys l).Nodup) :
    alKeys ((reciprocal_rank_fusion v l 1 0 k).filter (fun p => decide (p.2 ≠ 0))) =
      alKeys (sortByScoreDesc v) ∧
    alKeys ((reciprocal_rank_fusion v l 0 1 k).filter (fun p => decide (p.2 ≠ 0))) =
      alKeys (sortByScoreDesc l) :=
  ⟨rrf_extreme_vector v l k hv hl, rrf_extreme_fulltext v l k hv hl⟩

/-- Witness for the amended C2 at concrete inputs. -/
theorem rrf_weight_extremes_witness :
    ((alKeys sampleVectorHits).Nodup ∧ (alKeys sampleFulltextHits).Nodup) ∧
    (alKeys ((reciprocal_rank_fusion sampleVectorHits sampleFulltextHits 1 0 60).filter
        (fun p => decide (p.2 ≠ 0))) = alKeys (sortByScoreDesc sampleVectorHits) ∧
      alKeys ((reciprocal_rank_fusion sampleVectorHits sampleFulltextHits 0 1 60).filter
        (fun p => decide (p.2 ≠ 0))) = alKeys (sortByScoreDesc sampleFulltextHits)) :=
  ⟨⟨by decide, by decide⟩,
    rrf_weight_extremes sampleVectorHits sampleFulltextHits 60 (by decide) (by decide)⟩

/-- C4 counterexample: the normalizer is not idempotent on every string.
For the string "W1/" it returns the empty final segment, while a second
application maps that empty string to None. -/
theorem extract_openalex_id_cex :
    extract_openalex_id (extract_openalex_id (some (strToChars "W1/"))) ≠
      extract_openalex_id (some (strToChars "W1/")) := by
  decide

/-- C4 (amended): normalize(None) = None, and the normalizer is
idempotent on every string that does not end with a slash; a string
ending with a slash normalizes to its empty final segment, which a
second application sends to None.  Totality is witnessed by
extract_openalex_id being a total Lean function. -/
theorem extract_openalex_id_idempotent (u : PyStr) (h : u.getLast? ≠ some '/') :
    extract_openalex_id (extract_openalex_id (some u)) =
      extract_openalex_id (some u) ∧
    extract_openalex_id none = none := by
  refine ⟨?_, rfl⟩
  by_cases h0 : u = []
  · subst h0
    rfl
  · by_cases hs : ('/' : Char) ∈ u
    · have ht_ne : (splitOnChar '/' u).getLastD [] ≠ [] :=
        last_segment_ne_nil '/' u h0 h
      have ht_no : ('/' : Char) ∉ (splitOnChar '/' u).getLastD [] :=
        sep_not_mem_last_segment '/' u
      rw [List.getLastD_eq_getLast?] at ht_ne ht_no
      simp [extract_openalex_id, h0, hs, ht_ne, ht_no]
    · simp [extract_openalex_id, h0, hs]

/-- Witness for the amended C4 at a concrete URL. -/
theorem extract_openalex_id_idempotent_witness :
    ((strToChars "https://openalex.org/W123").getLast? ≠ some '/') ∧
    ((extract_openalex_id (extract_openalex_id
        (some (strToChars "https://openalex.org/W123"))) =
      extract_openalex_id (some (strToChars "https://openalex.org/W123"))) ∧
      extract_openalex_id none = none) :=
  ⟨by decide, extract_openalex_id_idempotent (strToChars "https://openalex.org/W123")
    (by decide)⟩

/-! Lookup behaviour of the two merge policies. -/
theorem lookup_eq_none_of_not_mem_keys {α : Type} {m : List (String × α)}
    {id : String} (h : id ∉ alKeys m) : List.lookup id m = none := by
  induction m with
  | nil => rfl
  | cons p ps ih =>
      have h1 : id ≠ p.1 := by
        intro hc
        exact h (hc ▸ List.mem_map_of_mem Prod.fst (List.mem_cons_self p ps))
      have h2 : id ∉ alKeys ps := fun hc => h (List.mem_cons_of_mem _ hc)
      have hbeq : (id == p.1) = false := beq_false_of_ne h1
      simp only [List.lookup, hbeq]
      exact ih h2

theorem lookup_isSome_of_mem_keys {α : Type} {m : List (String × α)}
    {id : String} (h : id ∈ alKeys m) : ∃ w, List.lookup id m = some w := by
  induction m with
  | nil => exact absurd h (List.not_mem_nil id)
  | cons p ps ih =>
      by_cases h1 : id = p.1
      · exact ⟨p.2, by simp [List.lookup, h1]⟩
      · have h2 : id ∈ alKeys ps := by
          rcases List.mem_cons.mp h with hc | hc
          · exact absurd hc h1
          · exact hc
        obtain ⟨w, hw⟩ := ih h2
        exact ⟨w, by simp only [List.lookup, beq_false_of_ne h1]; exact hw⟩

theorem lookup_map_update {α : Type} (m : List (String × α)) (key : String)
    (v : α) (id : String) :
    List.lookup id (m.map (fun p => if p.1 = key then (p.1, v) else p)) =
      (List.lookup id m).map (fun w => if id = key then v else w) := by
  induction m with
  | nil => rfl
  | cons p ps ih =>
      obtain ⟨p1, p2⟩ := p
      by_cases hid : id = p1
      · have hbeq : (id == p1) = true := beq_iff_eq.mpr hid
        by_cases hpk : p1 = key
        · simp only [List.map_cons, if_pos hpk, List.lookup_cons, hbeq]
          simp [if_pos (hid.trans hpk)]
        · simp only [List.map_cons, if_neg hpk, List.lookup_cons, hbeq]
          simp [if_neg (fun hc => hpk (hid.symm.trans hc))]
      · have hbeq : (id == p1) = false := beq_false_of_ne hid
        by_cases hpk : p1 = key
        · simp only [List.map_cons, if_pos hpk, List.lookup_cons, hbeq]
          exact ih
        · simp only [List.map_cons, if_neg hpk, List.lookup_cons, hbeq]
          exact ih

theorem alInsert_lookup {α : Type} (m : List (String × α)) (key : String)
    (v : α) (id : String) :
    List.lookup id (alInsert m key v) =
      if id = key then some v else List.lookup id m := by
  by_cases hmem : key ∈ alKeys m
  · rw [alInsert_of_mem hmem, lookup_map_update]
    by_cases hid : id = key
    · subst hid
      obtain ⟨w, hw⟩ := lookup_isSome_of_mem_keys hmem
      simp [hw]
    · simp only [if_neg hid]
      cases List.lookup id m <;> simp [hid]
  · rw [alInsert_of_not_mem hmem, List.lookup_append]
    by_cases hid : id = key
    · rw [lookup_eq_none_of_not_mem_keys (hid ▸ hmem)]
      simp [List.lookup, hid]
    · simp only [if_neg hid]
      cases hm : List.lookup id m
      · simp [List.lookup, beq_false_of_ne hid]
      · rfl

theorem addWorksList_lookup (ws : List Work) :
    ∀ (m : List (String × Work)) (id : String),
      List.lookup id (addWorksList m ws) =
        match List.lookup id m with
        | some w => some w
        | none => ws.find? (fun w => w.id == id) := by
  induction ws with
  | nil =>
      intro m id
      have hbase : addWorksList m [] = m := rfl
      rw [hbase]
      cases h : List.lookup id m <;> simp [h]
  | cons w ws' ih =>
      intro m id
      by_cases hmem : w.id ∈ alKeys m
      · have hstep : addWorksList m (w :: ws') = addWorksList m ws' := by
          simp [addWorksList, hmem]
        rw [hstep, ih m id]
        cases hm : List.lookup id m with
        | some v => rfl
        | none =>
            have hne : w.id ≠ id := by
              intro hc
              obtain ⟨x, hx⟩ := lookup_isSome_of_mem_keys (hc ▸ hmem)
              rw [hm] at hx
              exact Option.noConfusion hx
            simp [List.find?, beq_false_of_ne hne]
      · have hstep : addWorksList m (w :: ws') =
            addWorksList (m ++ [(w.id, w)]) ws' := by
          simp [addWorksList, hmem]
        rw [hstep, ih _ id, List.lookup_append]
        cases hm : List.lookup id m with
        | some v => rfl
        | none =>
            by_cases hid : id = w.id
            · simp [List.lookup, List.find?, hid]
            · have h1 : (id == w.id) = false := beq_false_of_ne hid
              have h2 : (w.id == id) = false := beq_false_of_ne (Ne.symm hid)
              simp [List.lookup, List.find?, h1, h2]

theorem mergeAssign_lookup {α : Type} (idOf : α → String) (xs : List α) :
    ∀ (m : List (String × α)) (id : String),
      List.lookup id (mergeAssign m xs idOf) =
        match xs.reverse.find? (fun x => idOf x == id) with
        | some x => some x
        | none => List.lookup id m := by
  induction xs with
  | nil => intro m id; rfl
  | cons x xs' ih =>
      intro m id
      have hstep : mergeAssign m (x :: xs') idOf =
          mergeAssign (alInsert m (idOf x) x) xs' idOf := rfl
      rw [hstep, ih _ id, List.reverse_cons, List.find?_append]
      cases hfind : xs'.reverse.find? (fun y => idOf y == id) with
      | some y => rfl
      | none =>
          by_cases hid : idOf x = id
          · simp [List.find?, alInsert_lookup, hid]
          · have h1 : (idOf x == id) = false := beq_false_of_ne hid
            have h2 : id ≠ idOf x := Ne.symm hid
            simp [List.find?, alInsert_lookup, h1, h2]

/-- C3 counterexample: merging the author sequence [A(v1), B, A(v2)] with
the expansion-phase merge loop leaves A holding v2's fields, not v1's —
the non-Work kinds are last-write-wins, not first-write-wins. -/
theorem collector_merge_cex :
    List.lookup "A" (mergeAssign [] [authorAv1, authorB, authorAv2] Author.id) =
      some authorAv2 ∧
    authorAv2 ≠ authorAv1 ∧
    (mergeAssign [] [authorAv1, authorB, authorAv2] Author.id).length = 2 := by
  decide

/-- C3 (amended): within one import run, Works are merged first-write-wins
(_add_works inserts only ids not yet present, so a later record with a
known id is dropped), while the other six kinds are merged by
unconditional dict assignment, so the last record observed for an id wins
within the expansion merge loop. -/
theorem collector_merge_semantics {α : Type} (st : Collector) (ws : List Work)
    (idOf : α → String) (m : List (String × α)) (xs : List α) (id : String) :
    List.lookup id (add_works st ws).works =
      (match List.lookup id st.works with
       | some w => some w
       | none => ws.find? (fun w => w.id == id)) ∧
    List.lookup id (mergeAssign m xs idOf) =
      (match xs.reverse.find? (fun x => idOf x == id) with
       | some x => some x
       | none => List.lookup id m) :=
  ⟨addWorksList_lookup ws st.works id, mergeAssign_lookup idOf xs m id⟩

/-! Deduplication by first occurrence. -/
theorem dedupPairs_core (l : List (String × String)) :
    ∀ acc : List (String × String), acc.Nodup →
      (l.foldl (fun acc p => if p ∈ acc then acc else acc ++ [p]) acc).Nodup ∧
      ∀ x, x ∈ l.foldl (fun acc p => if p ∈ acc then acc else acc ++ [p]) acc ↔
        x ∈ acc ∨ x ∈ l := by
  induction l with
  | nil =>
      intro acc hacc
      exact ⟨hacc, fun x => by simp⟩
  | cons p ps ih =>
      intro acc hacc
      by_cases hmem : p ∈ acc
      · have hrec := ih acc hacc
        refine ⟨by simpa [hmem] using hrec.1, ?_⟩
        intro x
        rw [List.foldl_cons, if_pos hmem, (ih acc hacc).2 x]
        constructor
        · rintro (h1 | h2)
          · exact Or.inl h1
          · exact Or.inr (List.mem_cons_of_mem p h2)
        · rintro (h1 | h2)
          · exact Or.inl h1
          · rcases List.mem_cons.mp h2 with h3 | h3
            · exact Or.inl (h3 ▸ hmem)
            · exact Or.inr h3
      · have hacc' : (acc ++ [p]).Nodup := by
          apply List.Nodup.append hacc (List.nodup_singleton p)
          intro x hx hx2
          rw [List.mem_singleton.mp hx2] at hx
          exact hmem hx
        have hrec := ih (acc ++ [p]) hacc'
        refine ⟨by simpa [hmem] using hrec.1, ?_⟩
        intro x
        rw [List.foldl_cons, if_neg hmem, hrec.2 x, List.mem_append,
          List.mem_singleton]
        constructor
        · rintro ((h1 | h1) | h2)
          · exact Or.inl h1
          · exact Or.inr (h1 ▸ List.mem_cons_self p ps)
          · exact Or.inr (List.mem_cons_of_mem p h2)
        · rintro (h1 | h2)
          · exact Or.inl (Or.inl h1)
          · rcases List.mem_cons.mp h2 with h3 | h3
            · exact Or.inl (Or.inr h3)
            · exact Or.inr h3

theorem dedupPairs_nodup (l : List (String × String)) : (dedupPairs l).Nodup :=
  (dedupPairs_core l [] List.nodup_nil).1

theorem dedupPairs_mem (l : List (String × String)) (x : String × String) :
    x ∈ dedupPairs l ↔ x ∈ l := by
  rw [dedupPairs, (dedupPairs_core l [] List.nodup_nil).2 x]
  simp

/-- C5: every emitted relationship has both endpoint ids present as keys
of the corresponding resolved collections (the publishers collection
counting placeholder keys); in particular a work referencing an author id
never fetched contributes no AUTHORED edge. -/
theorem relationship_endpoints_resolved (st : Collector)
    (hw : ∀ p ∈ st.works, p.2.id = p.1) (hs : ∀ p ∈ st.sources, p.2.id = p.1) :
    (∀ e ∈ (import_relationships st).authored,
        e.1 ∈ alKeys st.authors ∧ e.2 ∈ alKeys st.works) ∧
    (∀ e ∈ (import_relationships st).affiliated_with,
        e.1 ∈ alKeys st.authors ∧ e.2 ∈ alKeys st.institutions) ∧
    (∀ e ∈ (import_relationships st).published_in,
        e.1 ∈ alKeys st.works ∧ e.2 ∈ alKeys st.sources) ∧
    (∀ e ∈ (import_relationships st).cites,
        e.1 ∈ alKeys st.works ∧ e.2 ∈ alKeys st.works) ∧
    (∀ e ∈ (import_relationships st).has_topic,
        e.1 ∈ alKeys st.works ∧ e.2 ∈ alKeys st.topics) ∧
    (∀ e ∈ (import_relationships st).funded_by,
        e.1 ∈ alKeys st.works ∧ e.2 ∈ alKeys st.funders) ∧
    (∀ e ∈ (import_relationships st).published_by,
        e.1 ∈ alKeys st.sources ∧ e.2 ∈ alKeys st.publishers) := by
  refine ⟨?_, ?_, ?_, ?_, ?_, ?_, ?_⟩
  · intro e he
    simp only [import_relationships, List.mem_flatMap, List.mem_map,
      List.mem_filter] at he
    obtain ⟨p, hp, a, ⟨ha1, ha2⟩, rfl⟩ := he
    exact ⟨of_decide_eq_true ha2,
      hw p hp ▸ List.mem_map_of_mem Prod.fst hp⟩
  · intro e he
    simp only [import_relationships] at he
    rw [dedupPairs_mem] at he
    simp only [List.mem_flatMap, work_affiliations, List.mem_map,
      List.mem_filter] at he
    obtain ⟨p, hp, a, ha, i, ⟨hi1, hi2⟩, rfl⟩ := he
    exact of_decide_eq_true hi2
  · intro e he
    simp only [import_relationships, List.mem_filterMap] at he
    obtain ⟨p, hp, heq⟩ := he
    cases hsid : p.2.source_id with
    | none => rw [hsid] at heq; exact Option.noConfusion heq
    | some s =>
        simp only [hsid] at heq
        by_cases hc : s ≠ "" ∧ s ∈ alKeys st.sources
        · rw [if_pos hc] at heq
          cases heq
          exact ⟨hw p hp ▸ List.mem_map_of_mem Prod.fst hp, hc.2⟩
        · rw [if_neg hc] at heq
          exact Option.noConfusion heq
  · intro e he
    simp only [import_relationships, List.mem_flatMap, List.mem_map,
      List.mem_filter] at he
    obtain ⟨p, hp, r, ⟨hr1, hr2⟩, rfl⟩ := he
    exact ⟨hw p hp ▸ List.mem_map_of_mem Prod.fst hp, of_decide_eq_true hr2⟩
  · intro e he
    simp only [import_relationships, List.mem_flatMap, List.mem_map,
      List.mem_filter] at he
    obtain ⟨p, hp, t, ⟨ht1, ht2⟩, rfl⟩ := he
    exact ⟨hw p hp ▸ List.mem_map_of_mem Prod.fst hp, of_decide_eq_true ht2⟩
  · intro e he
    simp only [import_relationships, List.mem_flatMap, List.mem_map,
      List.mem_filter] at he
    obtain ⟨p, hp, f, ⟨hf1, hf2⟩, rfl⟩ := he
    exact ⟨hw p hp ▸ List.mem_map_of_mem Prod.fst hp, of_decide_eq_true hf2⟩
  · intro e he
    simp only [import_relationships, List.mem_filterMap] at he
    obtain ⟨p, hp, heq⟩ := he
    cases hpid : p.2.publisher_id with
    | none => rw [hpid] at heq; exact Option.noConfusion heq
    | some pb =>
        simp only [hpid] at heq
        by_cases hc : pb ≠ "" ∧ pb ∈ alKeys st.publishers
        · rw [if_pos hc] at heq
          cases heq
          exact ⟨hs p hp ▸ List.mem_map_of_mem Prod.fst hp, hc.2⟩
        · rw [if_neg hc] at heq
          exact Option.noConfusion heq

/-- Witness for C5 at the concrete collector. -/
theorem relationship_endpoints_resolved_witness :
    (∀ p ∈ sampleCollector.works, p.2.id = p.1) ∧
    (∀ p ∈ sampleCollector.sources, p.2.id = p.1) ∧
    ((∀ e ∈ (import_relationships sampleCollector).authored,
        e.1 ∈ alKeys sampleCollector.authors ∧ e.2 ∈ alKeys sampleCollector.works) ∧
      (∀ e ∈ (import_relationships sampleCollector).affiliated_with,
        e.1 ∈ alKeys sampleCollector.authors ∧
          e.2 ∈ alKeys sampleCollector.institutions) ∧
      (∀ e ∈ (import_relationships sampleCollector).published_in,
        e.1 ∈ alKeys sampleCollector.works ∧ e.2 ∈ alKeys sampleCollector.sources) ∧
      (∀ e ∈ (import_relationships sampleCollector).cites,
        e.1 ∈ alKeys sampleCollector.works ∧ e.2 ∈ alKeys sampleCollector.works) ∧
      (∀ e ∈ (import_relationships sampleCollector).has_topic,
        e.1 ∈ alKeys sampleCollector.works ∧ e.2 ∈ alKeys sampleCollector.topics) ∧
      (∀ e ∈ (import_relationships sampleCollector).funded_by,
        e.1 ∈ alKeys sampleCollector.works ∧ e.2 ∈ alKeys sampleCollector.funders) ∧
      (∀ e ∈ (import_relationships sampleCollector).published_by,
        e.1 ∈ alKeys sampleCollector.sources ∧
          e.2 ∈ alKeys sampleCollector.publishers)) :=
  ⟨by decide, by decide,
    relationship_endpoints_resolved sampleCollector (by decide) (by decide)⟩

/-- The per-work proposed affiliation count is bounded by the product of
the work's author and institution list lengths. -/
theorem work_affiliations_length (st : Collector) (w : Work) :
    (work_affiliations st w).length ≤
      w.author_ids.length * w.institution_ids.length := by
  unfold work_affiliations
  induction w.author_ids with
  | nil => simp
  | cons a as ih =>
      rw [List.flatMap_cons, List.length_append, List.length_cons,
        Nat.succ_mul]
      have h1 : ((w.institution_ids.filter
          (fun i => decide (a ∈ alKeys st.authors ∧ i ∈ alKeys st.institutions))).map
            (fun i => (a, i))).length ≤ w.institution_ids.length := by
        rw [List.length_map]
        exact List.length_filter_le _ _
      have := Nat.add_le_add ih h1
      omega

/-- C6: the AFFILIATED_WITH batch is globally deduplicated by exact
(author, institution) pair and contains exactly the pairs drawn from some
work's author-list x institution-list cross product with both entities
resolved; each work proposes at most authors x institutions pairs. -/
theorem affiliated_cross_product (st : Collector) :
    (import_relationships st).affiliated_with.Nodup ∧
    (∀ pr : String × String, pr ∈ (import_relationships st).affiliated_with ↔
      ∃ p ∈ st.works, pr.1 ∈ p.2.author_ids ∧ pr.2 ∈ p.2.institution_ids ∧
        pr.1 ∈ alKeys st.authors ∧ pr.2 ∈ alKeys st.institutions) ∧
    (∀ p ∈ st.works, (work_affiliations st p.2).length ≤
      p.2.author_ids.length * p.2.institution_ids.length) := by
  refine ⟨?_, ?_, fun p _ => work_affiliations_length st p.2⟩
  · exact dedupPairs_nodup _
  · intro pr
    simp only [import_relationships]
    rw [dedupPairs_mem]
    simp only [List.mem_flatMap, work_affiliations, List.mem_map, List.mem_filter]
    constructor
    · rintro ⟨p, hp, a, ha, i, ⟨hi1, hi2⟩, rfl⟩
      have hcond := of_decide_eq_true hi2
      exact ⟨p, hp, ha, hi1, hcond.1, hcond.2⟩
    · rintro ⟨p, hp, ha, hi, hka, hki⟩
      refine ⟨p, hp, pr.1, ha, pr.2, ⟨hi, decide_eq_true ⟨hka, hki⟩⟩, rfl⟩

/-- C8 counterexample: a round on a state whose six per-kind frontiers
are all empty still issues a publisher fetch and mutates the publishers
collection when an unresolved publisher placeholder is present. -/
theorem expand_empty_frontier_cex :
    frontierOf (collectIds Work.author_ids placeholderCollector)
        placeholderCollector.authors = [] ∧
    frontierOf (collectIds Work.institution_ids placeholderCollector)
        placeholderCollector.institutions = [] ∧
    frontierOf (collectSourceIds placeholderCollector)
        placeholderCollector.sources = [] ∧
    frontierOf (collectIds Work.topic_ids placeholderCollector)
        placeholderCollector.topics = [] ∧
    frontierOf (collectIds Work.funder_ids placeholderCollector)
        placeholderCollector.funders = [] ∧
    frontierOf (collectIds Work.referenced_work_ids placeholderCollector)
        placeholderCollector.works = [] ∧
    (expand_relationships publisherOracle placeholderCollector).2 =
      [FetchCall.publishers ["P1"]] ∧
    (expand_relationships publisherOracle placeholderCollector).1.publishers =
      [("P1", some samplePublisherP1)] := by
  decide

/-- C8 (amended): an expansion round on a state whose six per-kind
frontiers are empty and whose publishers collection holds no unresolved
placeholder issues no fetch call and returns the state unchanged (hence
repeated rounds on such a state stay no-ops); the placeholder proviso is
forced by the counterexample, since the publisher backfill step runs
regardless of the frontiers. -/
theorem expand_empty_frontier_noop (fx : FetchOracle) (st : Collector)
    (h1 : frontierOf (collectIds Work.author_ids st) st.authors = [])
    (h2 : frontierOf (collectIds Work.institution_ids st) st.institutions = [])
    (h3 : frontierOf (collectSourceIds st) st.sources = [])
    (h4 : frontierOf (collectIds Work.topic_ids st) st.topics = [])
    (h5 : frontierOf (collectIds Work.funder_ids st) st.funders = [])
    (h6 : frontierOf (collectIds Work.referenced_work_ids st) st.works = [])
    (h7 : st.publishers.filter (fun p => p.2.isNone) = []) :
    expand_relationships fx st = (st, []) := by
  unfold expand_relationships
  rw [h1, h2, h3, h4, h5, h6]
  simp only [ne_eq, not_true_eq_false, if_false, ite_self, reduceIte, h7]
  rfl

/-- Witness for the amended C8: the resolved collector has empty frontiers
and no placeholder, and the round is a no-op even against an oracle that
would return data. -/
theorem expand_empty_frontier_noop_witness :
    (frontierOf (collectIds Work.author_ids resolvedCollector)
        resolvedCollector.authors = [] ∧
      frontierOf (collectIds Work.institution_ids resolvedCollector)
        resolvedCollector.institutions = [] ∧
      frontierOf (collectSourceIds resolvedCollector) resolvedCollector.sources = [] ∧
      frontierOf (collectIds Work.topic_ids resolvedCollector)
        resolvedCollector.topics = [] ∧
      frontierOf (collectIds Work.funder_ids resolvedCollector)
        resolvedCollector.funders = [] ∧
      frontierOf (collectIds Work.referenced_work_ids resolvedCollector)
        resolvedCollector.works = [] ∧
      resolvedCollector.publishers.filter (fun p => p.2.isNone) = []) ∧
    expand_relationships publisherOracle resolvedCollector = (resolvedCollector, []) :=
  ⟨⟨by decide, by decide, by decide, by decide, by decide, by decide, by decide⟩,
    expand_empty_frontier_noop publisherOracle resolvedCollector (by decide)
      (by decide) (by decide) (by decide) (by decide) (by decide) (by decide)⟩

/-! Facts about listMax and position writing. -/
theorem foldl_max_init_le (l : List ℕ) : ∀ acc, acc ≤ l.foldl Nat.max acc := by
  induction l with
  | nil => intro acc; exact le_refl acc
  | cons x xs ih =>
      intro acc
      exact le_trans (Nat.le_max_left acc x) (ih (Nat.max acc x))

theorem le_foldl_max_of_mem {x : ℕ} {l : List ℕ} (h : x ∈ l) :
    ∀ acc, x ≤ l.foldl Nat.max acc := by
  induction l with
  | nil => exact absurd h (List.not_mem_nil x)
  | cons y ys ih =>
      intro acc
      rcases List.mem_cons.mp h with h1 | h2
      · exact le_trans (h1 ▸ Nat.le_max_right acc y) (foldl_max_init_le ys _)
      · exact ih h2 _

theorem le_listMax_of_mem {x : ℕ} {l : List ℕ} (h : x ∈ l) : x ≤ listMax l :=
  le_foldl_max_of_mem h 0

theorem writePositions_length (word : PyStr) (positions : List ℕ) :
    ∀ ws, (writePositions word positions ws).length = ws.length := by
  induction positions with
  | nil => intro ws; rfl
  | cons pos rest ih =>
      intro ws
      rw [writePositions, List.foldl_cons]
      have := ih (ws.set pos word)
      rw [writePositions] at this
      rw [this, List.length_set]

theorem writePositions_getD (word : PyStr) (positions : List ℕ) :
    ∀ (ws : List PyStr) (i : ℕ), i < ws.length →
      (∀ pos ∈ positions, pos < ws.length) →
      (writePositions word positions ws).getD i [] =
        if i ∈ positions then word else ws.getD i [] := by
  induction positions with
  | nil => intro ws i _ _; simp [writePositions]
  | cons pos rest ih =>
      intro ws i hi hpos
      rw [writePositions, List.foldl_cons]
      have hrec := ih (ws.set pos word) i (by rwa [List.length_set])
        (by intro q hq; rw [List.length_set]; exact hpos q (List.mem_cons_of_mem pos hq))
      rw [writePositions] at hrec
      rw [hrec]
      by_cases hmem : i ∈ rest
      · rw [if_pos hmem, if_pos (List.mem_cons_of_mem pos hmem)]
      · rw [if_neg hmem]
        by_cases hip : i = pos
        · rw [if_pos (hip ▸ List.mem_cons_self pos rest)]
          subst hip
          simp [List.getD_eq_getElem?_getD, List.getElem?_set, hi]
        · have : i ∉ pos :: rest := by
            intro hc
            rcases List.mem_cons.mp hc with h1 | h2
            · exact hip h1
            · exact hmem h2
          rw [if_neg this]
          have hip2 : pos ≠ i := fun h => hip h.symm
          simp [List.getD_eq_getElem?_getD, List.getElem?_set, hip2]

theorem buildWords_getD (idx : List (PyStr × List ℕ)) :
    ∀ (ws : List PyStr) (i : ℕ), i < ws.length →
      (∀ p ∈ idx, ∀ pos ∈ p.2, pos < ws.length) →
      (idx.foldl (fun ws p => writePositions p.1 p.2 ws) ws).getD i [] =
        match idx.reverse.find? (fun p => p.2.contains i) with
        | some p => p.1
        | none => ws.getD i [] := by
  induction idx with
  | nil => intro ws i _ _; rfl
  | cons p rest ih =>
      intro ws i hi hpos
      rw [List.foldl_cons]
      have hlen : (writePositions p.1 p.2 ws).length = ws.length :=
        writePositions_length p.1 p.2 ws
      have hrec := ih (writePositions p.1 p.2 ws) i (by rwa [hlen])
        (by intro q hq pos hq2; rw [hlen]
            exact hpos q (List.mem_cons_of_mem p hq) pos hq2)
      rw [hrec, List.reverse_cons, List.find?_append]
      cases hfind : rest.reverse.find? (fun q => q.2.contains i) with
      | some q => rfl
      | none =>
          have hstep := writePositions_getD p.1 p.2 ws i hi
            (fun pos hq => hpos p (List.mem_cons_self p rest) pos hq)
          by_cases hmem : i ∈ p.2
          · have : (List.find? (fun q => q.2.contains i) [p]) = some p := by
              simp [List.find?, List.contains, hmem]
            simp only [Option.none_or, this, hstep, if_pos hmem]
          · have : (List.find? (fun q => q.2.contains i) [p]) = none := by
              simp [List.find?, List.contains, hmem]
            simp only [Option.none_or, this, hstep, if_neg hmem]

theorem buildWords_length (idx : List (PyStr × List ℕ)) :
    ∀ ws : List PyStr,
      (idx.foldl (fun ws p => writePositions p.1 p.2 ws) ws).length = ws.length := by
  induction idx with
  | nil => intro ws; rfl
  | cons p rest ih =>
      intro ws
      rw [List.foldl_cons, ih, writePositions_length]

/-- C7: reconstruction builds a sequence of length max(position)+1,
writes each word at each of its positions (the last writer winning on
overlaps), joins with single spaces, leaves unwritten positions as empty
strings, and sends the example index to "This is a test". -/
theorem reconstruct_abstract_spec (idx : List (PyStr × List ℕ))
    (h1 : idx ≠ []) (h2 : ∀ p ∈ idx, p.2 ≠ []) :
    (∃ ws : List PyStr,
      reconstruct_abstract idx = joinWithSpace ws ∧
      ws.length = listMax (idx.map (fun p => listMax p.2)) + 1 ∧
      (∀ i, i < ws.length → ws.getD i [] = lastWriteAt idx i) ∧
      (∀ i, i < ws.length → (∀ p ∈ idx, i ∉ p.2) → ws.getD i [] = [])) ∧
    reconstruct_abstract sampleInvertedIndex = strToChars "This is a test" := by
  constructor
  · set size := listMax (idx.map (fun p => listMax p.2)) + 1 with hsize
    set ws0 := List.replicate size ([] : PyStr) with hws0
    set ws := idx.foldl (fun ws p => writePositions p.1 p.2 ws) ws0 with hws
    have hlen : ws.length = size := by
      rw [hws, buildWords_length, hws0, List.length_replicate]
    have hbound : ∀ p ∈ idx, ∀ pos ∈ p.2, pos < ws0.length := by
      intro p hp pos hpos
      rw [hws0, List.length_replicate, hsize]
      have hx1 : pos ≤ listMax p.2 := le_listMax_of_mem hpos
      have hx2 : listMax p.2 ≤ listMax (idx.map (fun p => listMax p.2)) :=
        le_listMax_of_mem (List.mem_map_of_mem (fun p => listMax p.2) hp)
      omega
    refine ⟨ws, rfl, hlen, ?_, ?_⟩
    · intro i hi
      have hi0 : i < ws0.length := by
        rw [hws0, List.length_replicate]
        rw [hlen] at hi
        exact hi
      rw [hws, buildWords_getD idx ws0 i hi0 hbound]
      unfold lastWriteAt
      cases idx.reverse.find? (fun p => p.2.contains i) with
      | some p => rfl
      | none =>
          rw [hws0]
          simp [List.getD_eq_getElem?_getD, List.getElem?_replicate,
            (by rw [hws0, List.length_replicate] at hi0; exact hi0 : i < size)]
    · intro i hi hnone
      have hi0 : i < ws0.length := by
        rw [hws0, List.length_replicate]
        rw [hlen] at hi
        exact hi
      have hfind : idx.reverse.find? (fun p => p.2.contains i) = none := by
        apply List.find?_eq_none.mpr
        intro p hp
        have : i ∉ p.2 := hnone p (List.mem_reverse.mp hp)
        simp [List.contains, this]
      rw [hws, buildWords_getD idx ws0 i hi0 hbound, hfind, hws0]
      simp [List.getD_eq_getElem?_getD, List.getElem?_replicate,
        (by rw [hws0, List.length_replicate] at hi0; exact hi0 : i < size)]
  · decide

/-- Witness for C7 at the example inverted index. -/
theorem reconstruct_abstract_spec_witness :
    (sampleInvertedIndex ≠ [] ∧ ∀ p ∈ sampleInvertedIndex, p.2 ≠ []) ∧
    ((∃ ws : List PyStr,
      reconstruct_abstract sampleInvertedIndex = joinWithSpace ws ∧
      ws.length = listMax (sampleInvertedIndex.map (fun p => listMax p.2)) + 1 ∧
      (∀ i, i < ws.length → ws.getD i [] = lastWriteAt sampleInvertedIndex i) ∧
      (∀ i, i < ws.length →
        (∀ p ∈ sampleInvertedIndex, i ∉ p.2) → ws.getD i [] = [])) ∧
    reconstruct_abstract sampleInvertedIndex = strToChars "This is a test") :=
  ⟨⟨by decide, by decide⟩,
    reconstruct_abstract_spec sampleInvertedIndex (by decide) (by decide)⟩

/-- The dynamic label stored by to_node_dict equals the spec's sub-type
label derivation. -/
theorem work_node_dict_label_eq (w : Work) :
    (match w.type, to_camel_case_label w.type with
      | some t, some lbl => if t ≠ [] then lbl else strToChars "Work"
      | _, _ => strToChars "Work") = specSubTypeLabel w.type := by
  cases hty : w.type with
  | none => rfl
  | some t =>
      by_cases ht : t = []
      · subst ht
        rfl
      · simp [to_camel_case_label, specSubTypeLabel, ht]

/-- C9: the node dict of every Work carries under the key _label the
sub-type label obtained by splitting the type tag on hyphens,
capitalizing each token and concatenating ("journal-article" becomes
"JournalArticle", "peer-review-journal-article" becomes
"PeerReviewJournalArticle"), with "Work" for an absent or empty tag; the
label sits alongside the nine base properties, which all remain in the
dict. -/
theorem work_subtype_label (w : Work) :
    List.lookup "_label" w.to_node_dict =
      some (PVal.pstr (specSubTypeLabel w.type)) ∧
    (∀ k ∈ (["id", "title", "publication_year", "publication_date", "doi",
        "type", "cited_by_count", "is_oa", "abstract"] : List String),
      k ∈ alKeys w.to_node_dict) ∧
    specSubTypeLabel (some (strToChars "journal-article")) =
      strToChars "JournalArticle" ∧
    specSubTypeLabel (some (strToChars "peer-review-journal-article")) =
      strToChars "PeerReviewJournalArticle" ∧
    specSubTypeLabel none = strToChars "Work" := by
  refine ⟨?_, ?_, by decide, by decide, rfl⟩
  · unfold Work.to_node_dict
    rw [work_node_dict_label_eq]
    cases w.embedding with
    | none => simp [List.lookup_append, List.lookup_cons]
    | some e =>
        by_cases he : e ≠ [] <;>
          simp [he, List.lookup_append, List.lookup_cons]
  · intro k hk
    unfold Work.to_node_dict
    cases w.embedding with
    | none =>
        simp only [alKeys, List.map_append]
        fin_cases hk <;> simp
    | some e =>
        by_cases he : e = [] <;>
          · simp only [alKeys, he, List.map_append]
            fin_cases hk <;> simp [he]

end OpenAlexNeo4j
